import Mathlib

/-!
Verification development for the tile-grid water-flow simulation.

The Python sources are embedded shallowly:
* dictionaries become association lists (`List (κ × α)`) with Python-dict
  update semantics (`aset` replaces in place, appends new keys at the end);
* sets whose code only tests membership become lists queried with `∈`;
* machine integers are `Int` (coordinates, directions) and `Nat`
  (ages, emitter ids, tick counts);
* the recursive cycle check and the flood fill take an explicit fuel
  argument; the callers pass fuel that provably suffices.
-/

namespace Flow
abbrev Coord := Int × Int

/-- Water cell record, from `simulation_state.py` (`WaterCell`). -/
structure WaterCell where
  dx : Int
  dy : Int
  age : Nat
  emitter_id : Nat
  prefer_left : Bool
deriving DecidableEq, Repr

/-- Emitter record, as produced by the level parser (`id, x, y, dx, dy`). -/
structure Emitter where
  id : Nat
  x : Int
  y : Int
  dx : Int
  dy : Int
deriving DecidableEq, Repr

/-- Static level geometry handed to the engine (`w, h, walls, emitters, sinks`). -/
structure GridWorld where
  w : Int
  h : Int
  walls : List Coord
  emitters : List Emitter
  sinks : List Coord
deriving DecidableEq, Repr

/-- Mutable simulation state, from `simulation_state.py` (`SimulationState`). -/
structure SimulationState where
  water : List (Coord × WaterCell)
  sink_claims : List (Coord × Nat)
deriving DecidableEq, Repr

/-- Association-list lookup, modelling Python `dict.get`. -/
def alook {κ α : Type} [DecidableEq κ] : List (κ × α) → κ → Option α
  | [], _ => none
  | (k, v) :: rest, c => if k = c then some v else alook rest c

/-- Association-list store, modelling Python `d[k] = v`: replaces the value in
place when the key is present, appends at the end otherwise. -/
def aset {κ α : Type} [DecidableEq κ] : List (κ × α) → κ → α → List (κ × α)
  | [], k, v => [(k, v)]
  | (k', v') :: rest, k, v =>
      if k' = k then (k, v) :: rest else (k', v') :: aset rest k v

/-- Key list of an association list (Python `d.keys()`). -/
def akeys {κ α : Type} (l : List (κ × α)) : List κ := l.map Prod.fst

/-- `in_bounds` from `movement_resolver.py`. -/
def in_bounds (x y w h : Int) : Bool :=
  decide (0 ≤ x) && decide (x < w) && decide (0 ≤ y) && decide (y < h)

/-- `self.emitter_positions` computed in `MovementResolver.__init__`. -/
def emitter_positions (world : GridWorld) : List Coord :=
  world.emitters.map (fun e => (e.x, e.y))

/-- `self.prev_owner` computed in `MovementResolver.__init__` (before spawning). -/
def prev_owner_map (water : List (Coord × WaterCell)) : List (Coord × Nat) :=
  water.map (fun pc => (pc.1, pc.2.emitter_id))

/-- One emitter's step of `MovementResolver.spawn_from_emitters`: skip when the
forward tile is out of bounds, a wall, occupied, an emitter tile, or a sink;
otherwise place a fresh cell (emitter direction, age 0, owner id, prefer_left). -/
def spawn_step (world : GridWorld) (acc : List (Coord × WaterCell) × List Coord)
    (e : Emitter) : List (Coord × WaterCell) × List Coord :=
  let t : Coord := (e.x + e.dx, e.y + e.dy)
  if !(in_bounds t.1 t.2 world.w world.h) then acc
  else if t ∈ world.walls ∨ t ∈ acc.2 ∨ t ∈ emitter_positions world then acc
  else if t ∈ world.sinks then acc
  else (aset acc.1 t ⟨e.dx, e.dy, 0, e.id, true⟩, acc.2 ++ [t])

/-- `MovementResolver.spawn_from_emitters`: fold `spawn_step` over the ordered
emitter list, threading the water map and the occupied set. -/
def spawn_from_emitters (world : GridWorld) (water : List (Coord × WaterCell))
    (occupied : List Coord) : List (Coord × WaterCell) × List Coord :=
  world.emitters.foldl (spawn_step world) (water, occupied)

/-- Move proposal tuple `(nx, ny, ndx, ndy, eid, prefer_left)`. -/
structure Proposal where
  nx : Int
  ny : Int
  ndx : Int
  ndy : Int
  eid : Nat
  pref : Bool
deriving DecidableEq, Repr

/-- The per-candidate admissibility test used by the turn loop of
`MovementResolver._propose_move`: in bounds, not a wall, not an emitter tile,
and, when a sink, not claimed by a different emitter. -/
def turn_ok (world : GridWorld) (claims : List (Coord × Nat)) (eid : Nat)
    (n : Coord) : Bool :=
  in_bounds n.1 n.2 world.w world.h &&
  !(decide (n ∈ world.walls)) && !(decide (n ∈ emitter_positions world)) &&
  (if n ∈ world.sinks then
      match alook claims n with
      | some owner => decide (owner = eid)
      | none => true
    else true)

/-- The forward tile probed by `MovementResolver._propose_move`. -/
def forward_coord (position : Coord) (cell : WaterCell) : Coord :=
  (position.1 + cell.dx, position.2 + cell.dy)

/-- The `forward_blocked` flag of `MovementResolver._propose_move`: out of
bounds, wall, or emitter tile; additionally, a sink claimed by a different
emitter. -/
def forward_blocked (world : GridWorld) (claims : List (Coord × Nat))
    (position : Coord) (cell : WaterCell) : Bool :=
  let f := forward_coord position cell
  let fb0 : Bool :=
    !(in_bounds f.1 f.2 world.w world.h) || decide (f ∈ world.walls) ||
      decide (f ∈ emitter_positions world)
  if f ∈ world.sinks then
    match alook claims f with
    | some owner => if owner ≠ cell.emitter_id then true else fb0
    | none => fb0
  else fb0

/-- The perpendicular turn candidates of `MovementResolver._propose_move`, in
`prefer_left` order: left `(dy, -dx)` first when `prefer_left`, else right
`(-dy, dx)` first. -/
def turn_order (cell : WaterCell) : List (Int × Int) :=
  if cell.prefer_left then [(cell.dy, -cell.dx), (-cell.dy, cell.dx)]
  else [(-cell.dy, cell.dx), (cell.dy, -cell.dx)]

/-- `MovementResolver._propose_move`: forward if unblocked, else the first
viable perpendicular turn in `prefer_left` order (flipping the preference),
else stay in place. -/
def propose_move (world : GridWorld) (claims : List (Coord × Nat))
    (position : Coord) (cell : WaterCell) : Coord × Proposal :=
  if !forward_blocked world claims position cell then
    (position, ⟨(forward_coord position cell).1, (forward_coord position cell).2,
      cell.dx, cell.dy, cell.emitter_id, cell.prefer_left⟩)
  else
    match (turn_order cell).find?
        (fun d => turn_ok world claims cell.emitter_id
          (position.1 + d.1, position.2 + d.2)) with
    | some d =>
        (position, ⟨position.1 + d.1, position.2 + d.2, d.1, d.2,
          cell.emitter_id, !cell.prefer_left⟩)
    | none =>
        (position, ⟨position.1, position.2, cell.dx, cell.dy, cell.emitter_id,
          cell.prefer_left⟩)

/-- `MovementResolver.build_proposals`: one proposal per water cell, keyed by
the cell's (unique) position, in water-map order. -/
def build_proposals (world : GridWorld) (claims : List (Coord × Nat))
    (water : List (Coord × WaterCell)) : List (Coord × Proposal) :=
  water.map (fun pc => propose_move world claims pc.1 pc.2)

/-- Mover tuple `(src, ndx, ndy, eid, prefer_left)` grouped under a target. -/
structure Mover where
  src : Coord
  ndx : Int
  ndy : Int
  eid : Nat
  pref : Bool
deriving DecidableEq, Repr

/-- `MovementResolver.group_targets`: group proposals by target coordinate with
Python `setdefault(...).append(...)` semantics. -/
def group_targets (proposals : List (Coord × Proposal)) :
    List (Coord × List Mover) :=
  proposals.foldl
    (fun tgts sp =>
      let t : Coord := (sp.2.nx, sp.2.ny)
      let m : Mover := ⟨sp.1, sp.2.ndx, sp.2.ndy, sp.2.eid, sp.2.pref⟩
      match alook tgts t with
      | some ms => aset tgts t (ms ++ [m])
      | none => tgts ++ [(t, [m])])
    []

/-- `MovementResolver.build_inflow_targets`: per target, the owner ids of
movers whose source differs from the target (membership-queried set). -/
def build_inflow_targets (targets : List (Coord × List Mover)) :
    List (Coord × List Nat) :=
  targets.foldl
    (fun acc tm =>
      let incoming := (tm.2.filter (fun m => m.src ≠ tm.1)).map Mover.eid
      if incoming = [] then acc else acc ++ [(tm.1, incoming)])
    []

/-- Selected move edge `(tgt, ndx, ndy, eid, prefer_left)` keyed by source. -/
structure Edge where
  tgt : Coord
  ndx : Int
  ndy : Int
  eid : Nat
  pref : Bool
deriving DecidableEq, Repr

/-- Lexicographic strict comparison of the sink tie-break key
`(claim_bonus, src_y, src_x)`. -/
def lt3 : Nat × Int × Int → Nat × Int × Int → Bool
  | (a1, b1, c1), (a2, b2, c2) =>
      decide (a1 < a2) ||
        (decide (a1 = a2) &&
          (decide (b1 < b2) || (decide (b1 = b2) && decide (c1 < c2))))

/-- Lexicographic strict comparison of the non-sink priority key
`(owner_bonus, straight_bonus, src_y, src_x)`. -/
def lt4 : Nat × Nat × Int × Int → Nat × Nat × Int × Int → Bool
  | (a1, b1, c1, d1), (a2, b2, c2, d2) =>
      decide (a1 < a2) || (decide (a1 = a2) && lt3 (b1, c1, d1) (b2, c2, d2))

/-- Python `min(..., key=...)` over a non-empty list: scan left to right keeping
the first element whose key is strictly smaller than the current best's. -/
def pickMin {κ : Type} (lt : κ → κ → Bool) (key : Mover → κ) :
    Mover → List Mover → Mover
  | best, [] => best
  | best, m :: rest =>
      if lt (key m) (key best) then pickMin lt key m rest
      else pickMin lt key best rest

/-- The sink tie-break key of `MovementResolver._select_edges`:
`(0 if sink_claims.get(tgt) == eid else 1, src_y, src_x)`. -/
def sinkKey (claims : List (Coord × Nat)) (tgt : Coord) (m : Mover) :
    Nat × Int × Int :=
  ((if alook claims tgt = some m.eid then 0 else 1), m.src.2, m.src.1)

/-- The non-sink priority key of `MovementResolver._select_edges`:
`(0 if prev_owner.get(tgt) == eid else 1, 0 if straight else 1, src_y, src_x)`,
where straightness compares the proposed direction with the direction of the
cell currently stored at the source (post-spawn water map). -/
def nonSinkKey (water : List (Coord × WaterCell)) (prev_owner : List (Coord × Nat))
    (tgt : Coord) (m : Mover) : Nat × Nat × Int × Int :=
  let cell := (alook water m.src).getD ⟨m.ndx, m.ndy, 0, m.eid, m.pref⟩
  let straight : Bool := decide (m.ndx = cell.dx) && decide (m.ndy = cell.dy)
  ((if alook prev_owner tgt = some m.eid then 0 else 1),
    (if straight then 0 else 1), m.src.2, m.src.1)

/-- Per-target step of `MovementResolver._select_edges`, threading the edge map
and the sink-claim map. Sink targets: one winner by `sinkKey`, claim recorded.
Non-sink targets: single mover wins outright, multiple movers resolved by
`nonSinkKey`. Groups are never empty; an empty group is a no-op. -/
def select_step (world : GridWorld) (water : List (Coord × WaterCell))
    (prev_owner : List (Coord × Nat))
    (acc : List (Coord × Edge) × List (Coord × Nat)) (tm : Coord × List Mover) :
    List (Coord × Edge) × List (Coord × Nat) :=
  let tgt := tm.1
  if tgt ∈ world.sinks then
    match tm.2 with
    | [] => acc
    | m0 :: rest =>
        let m := if rest = [] then m0 else pickMin lt3 (sinkKey acc.2 tgt) m0 rest
        (aset acc.1 m.src ⟨tgt, m.ndx, m.ndy, m.eid, m.pref⟩, aset acc.2 tgt m.eid)
  else
    match tm.2 with
    | [] => acc
    | [m] => (aset acc.1 m.src ⟨tgt, m.ndx, m.ndy, m.eid, m.pref⟩, acc.2)
    | m0 :: m1 :: rest =>
        let m := pickMin lt4 (nonSinkKey water prev_owner tgt) m0 (m1 :: rest)
        (aset acc.1 m.src ⟨tgt, m.ndx, m.ndy, m.eid, m.pref⟩, acc.2)

/-- `MovementResolver._select_edges`: fold over the grouped targets, returning
the selected edges and the updated sink-claim map. -/
def select_edges (world : GridWorld) (water : List (Coord × WaterCell))
    (prev_owner : List (Coord × Nat)) (claims : List (Coord × Nat))
    (targets : List (Coord × List Mover)) :
    List (Coord × Edge) × List (Coord × Nat) :=
  targets.foldl (select_step world water prev_owner) ([], claims)

/-- `MovementResolver._move_succeeds`, with explicit fuel (the Python version
recurses on the call stack; each nested call strictly grows the `visiting`
set, so fuel `edges.length + 1` is enough at every top-level call). The memo
table is threaded; `visiting` is extended functionally on the way down, which
matches the balanced `add`/`remove` pair around the Python recursive call. -/
def move_succeeds (sinks : List Coord) (edges : List (Coord × Edge))
    (occupied_now : List Coord) :
    Nat → Coord → List (Coord × Bool) → List Coord → Bool × List (Coord × Bool)
  | 0, _, memo, _ => (false, memo)
  | fuel + 1, src, memo, visiting =>
      match alook memo src with
      | some b => (b, memo)
      | none =>
          match alook edges src with
          | none => (false, aset memo src false)
          | some e =>
              if e.tgt ∈ sinks then (true, aset memo src true)
              else if e.tgt ∉ occupied_now then (true, aset memo src true)
              else if e.tgt = src then (true, aset memo src true)
              else if e.tgt ∈ visiting then (true, aset memo src true)
              else
                let res := move_succeeds sinks edges occupied_now fuel e.tgt memo
                  (visiting ++ [e.tgt])
                (res.1, aset res.2 src res.1)

/-- The inflow id set for a coordinate: `inflow_targets.get(c, set())`. -/
def inflowIds (inflow_targets : List (Coord × List Nat)) (c : Coord) : List Nat :=
  (alook inflow_targets c).getD []

/-- The loop body of `MovementResolver.advance_water` for one cell, returning
the committed `(coordinate, cell)` pair (`none` when the cell is consumed by a
sink or dropped by decay) and the updated memo table. A cell with a successful
edge moves (consumed on sinks, age 0 when the position changed, own-id inflow
refresh when it stayed put); a cell with no edge or a failed move stays, aging
unless its own id is in the inflow set of its position; any cell whose new age
reaches `decay_steps` is dropped. `move_succeeds` is only invoked when the cell
has an edge, matching the Python short-circuit `(x, y) in edges and ...`. -/
def cell_commit (sinks : List Coord) (edges : List (Coord × Edge))
    (occupied_now : List Coord) (inflow_targets : List (Coord × List Nat))
    (decay_steps fuel : Nat) (memo : List (Coord × Bool))
    (pc : Coord × WaterCell) :
    Option (Coord × WaterCell) × List (Coord × Bool) :=
  let p := pc.1
  let cell := pc.2
  match alook edges p with
  | some e =>
      let res := move_succeeds sinks edges occupied_now fuel p memo []
      if res.1 then
        if e.tgt ∈ sinks then (none, res.2)
        else
          let new_age : Nat :=
            if e.tgt ≠ p then 0
            else if e.eid ∈ inflowIds inflow_targets e.tgt then 0 else cell.age + 1
          if new_age < decay_steps then
            (some (e.tgt, ⟨e.ndx, e.ndy, new_age, e.eid, e.pref⟩), res.2)
          else (none, res.2)
      else
        let new_age : Nat :=
          if cell.emitter_id ∈ inflowIds inflow_targets p then 0 else cell.age + 1
        if new_age < decay_steps then
          (some (p, ⟨cell.dx, cell.dy, new_age, cell.emitter_id, cell.prefer_left⟩), res.2)
        else (none, res.2)
  | none =>
      let new_age : Nat :=
        if cell.emitter_id ∈ inflowIds inflow_targets p then 0 else cell.age + 1
      if new_age < decay_steps then
        (some (p, ⟨cell.dx, cell.dy, new_age, cell.emitter_id, cell.prefer_left⟩), memo)
      else (none, memo)

/-- One fold step of `MovementResolver.advance_water`: store the committed pair
of `cell_commit` (a Python dict write) into the next water map. -/
def advance_step (sinks : List Coord) (edges : List (Coord × Edge))
    (occupied_now : List Coord) (inflow_targets : List (Coord × List Nat))
    (decay_steps fuel : Nat)
    (acc : List (Coord × WaterCell) × List (Coord × Bool))
    (pc : Coord × WaterCell) : List (Coord × WaterCell) × List (Coord × Bool) :=
  let r := cell_commit sinks edges occupied_now inflow_targets decay_steps fuel acc.2 pc
  match r.1 with
  | some qv => (aset acc.1 qv.1 qv.2, r.2)
  | none => (acc.1, r.2)

/-- `MovementResolver.advance_water`: fold `advance_step` over the (post-spawn)
water map with a fresh memo table and `occupied_now = water.keys()`. -/
def advance_water (sinks : List Coord) (water : List (Coord × WaterCell))
    (edges : List (Coord × Edge)) (inflow_targets : List (Coord × List Nat))
    (decay_steps : Nat) : List (Coord × WaterCell) :=
  let occupied_now := akeys water
  let fuel := edges.length + 1
  (water.foldl (advance_step sinks edges occupied_now inflow_targets decay_steps fuel)
    ([], [])).1

/-- Manhattan distance used by `WaterPruner.prune`. -/
def manhattan (a b : Coord) : Nat :=
  (a.1 - b.1).natAbs + (a.2 - b.2).natAbs

/-- The four neighbour coordinates probed by the flood fill, in source order
`(x+1,y), (x-1,y), (x,y+1), (x,y-1)`. -/
def nbrs (p : Coord) : List Coord :=
  [(p.1 + 1, p.2), (p.1 - 1, p.2), (p.1, p.2 + 1), (p.1, p.2 - 1)]

/-- The stack-based flood fill of `WaterPruner.prune`, with explicit fuel.
The stack's head is the Python stack's top (`stack.pop()` pops the last
pushed element, so pushed neighbours are prepended in reverse). -/
def flood (positions : List Coord) :
    Nat → List Coord → List Coord → List Coord
  | 0, _, seen => seen
  | _ + 1, [], seen => seen
  | fuel + 1, pos :: stack, seen =>
      if pos ∈ seen then flood positions fuel stack seen
      else
        flood positions fuel
          (((nbrs pos).filter (fun n => decide (n ∈ positions))).reverse ++ stack)
          (seen ++ [pos])

/-- Fuel that provably suffices for `flood`: every non-seen step consumes one
stack entry and pushes at most four, while retiring one of the at most
`positions.length` never-seen coordinates. -/
def floodFuel (positions stack : List Coord) : Nat :=
  stack.length + 5 * positions.length + 1

/-- The positions of the cells owned by emitter id `eid` in `next_water`
(the `positions_by_eid` entry built by `WaterPruner.prune`). -/
def ownPositions (next_water : List (Coord × WaterCell)) (eid : Nat) :
    List Coord :=
  (next_water.filter (fun pc => pc.2.emitter_id = eid)).map Prod.fst

/-- One emitter's flood-fill result inside `WaterPruner.prune`: its own cells'
positions, the minimum Manhattan distance to the emitter source, the seeds at
that distance, and the flood fill through same-owner cells. An emitter with no
cells contributes the empty set. -/
def reachableFor (next_water : List (Coord × WaterCell)) (e : Emitter) :
    List Coord :=
  let positions := ownPositions next_water e.id
  match positions with
  | [] => []
  | p0 :: rest =>
      let min_dist := rest.foldl (fun d q => min d (manhattan q (e.x, e.y)))
        (manhattan p0 (e.x, e.y))
      let seeds := positions.filter (fun p => manhattan p (e.x, e.y) = min_dist)
      flood positions (floodFuel positions seeds) seeds.reverse []

/-- `WaterPruner.prune`: keep exactly the cells reached by their own emitter's
flood fill. The Python code threads one `seen` set per emitter id; emitter ids
are unique (GridWorld invariant), so each id's set is `reachableFor`. -/
def prune (next_water : List (Coord × WaterCell)) (emitters : List Emitter) :
    List (Coord × WaterCell) :=
  next_water.filter
    (fun pc => emitters.any
      (fun e => decide (e.id = pc.2.emitter_id) && decide (pc.1 ∈ reachableFor next_water e)))

/-- Spec side (claim C8): a minimum-distance seed of emitter `e` — one of its
own cells whose Manhattan distance to the emitter's source coordinate is
minimal among all of that emitter's cells. -/
def isMinSeed (next_water : List (Coord × WaterCell)) (e : Emitter)
    (s : Coord) : Prop :=
  s ∈ ownPositions next_water e.id ∧
    ∀ q ∈ ownPositions next_water e.id,
      manhattan s (e.x, e.y) ≤ manhattan q (e.x, e.y)

/-- Spec side (claim C8): 4-connected reachability expanding only through the
given cell positions, starting at a member. -/
inductive Connected (positions : List Coord) : Coord → Coord → Prop
  | refl (p : Coord) : p ∈ positions → Connected positions p p
  | tail (p q r : Coord) : Connected positions p q → r ∈ nbrs q →
      r ∈ positions → Connected positions p r

/-- A recorded-successful memo entry's local justification (claim C10): the
source has a selected edge whose target is a sink, unoccupied, the source
itself, recorded successful in turn, or on the in-progress `visiting` chain
(a detected cycle). -/
def JustT (sinks : List Coord) (edges : List (Coord × Edge))
    (occupied : List Coord) (memo : List (Coord × Bool)) (visiting : List Coord)
    (s : Coord) : Prop :=
  ∃ e : Edge, alook edges s = some e ∧ (e.tgt ∈ sinks ∨ e.tgt ∉ occupied ∨
    e.tgt = s ∨ alook memo e.tgt = some true ∨ e.tgt ∈ visiting)

/-- Soundness of a memo table (claim C10): every `true` entry is justified. -/
def MemoSound (sinks : List Coord) (edges : List (Coord × Edge))
    (occupied : List Coord) (memo : List (Coord × Bool))
    (visiting : List Coord) : Prop :=
  ∀ s, alook memo s = some true → JustT sinks edges occupied memo visiting s

/-- Invariant of the `advance_water` fold (claim C10), over the processed
prefix `done` of the water map and the accumulated `(next_water, memo)` pair:
the memo is sound, the committed keys are distinct, every committed key stems
from a processed mover's edge target or a processed stayer's own position,
every processed cell is consumed by a sink, decay-eligible, or present, and a
processed cell with no edge or a recorded-failed move is preserved in place
with the stationary aging rule. -/
def AdvInv (sinks : List Coord) (edges : List (Coord × Edge))
    (occupied : List Coord) (inflow : List (Coord × List Nat)) (dsteps : Nat)
    (done : List (Coord × WaterCell))
    (acc : List (Coord × WaterCell) × List (Coord × Bool)) : Prop :=
  MemoSound sinks edges occupied acc.2 [] ∧
  (akeys acc.1).Nodup ∧
  (∀ q ∈ akeys acc.1, ∃ p, p ∈ akeys done ∧
    ((∃ e : Edge, alook edges p = some e ∧ q = e.tgt ∧ e.tgt ∉ sinks ∧
        alook acc.2 p = some true) ∨
      (q = p ∧ (alook edges p = none ∨ alook acc.2 p = some false)))) ∧
  (∀ p c, (p, c) ∈ done →
    ((∃ e : Edge, alook edges p = some e ∧ alook acc.2 p = some true ∧
        e.tgt ∈ sinks) ∨
      c.age + 1 ≥ dsteps ∨
      (∃ q d, (q, d) ∈ acc.1 ∧
        (q = p ∨ ∃ e : Edge, alook edges p = some e ∧ q = e.tgt)))) ∧
  (∀ p c, (p, c) ∈ done →
    (alook edges p = none ∨ alook acc.2 p = some false) →
    (if c.emitter_id ∈ inflowIds inflow p then 0 else c.age + 1) < dsteps →
    (p, ⟨c.dx, c.dy,
      (if c.emitter_id ∈ inflowIds inflow p then 0 else c.age + 1),
      c.emitter_id, c.prefer_left⟩) ∈ acc.1) ∧
  (∀ p ∈ akeys done, ∀ e : Edge, alook edges p = some e →
    ∃ b, alook acc.2 p = some b)

/-- `SimulationEngine.decay_steps`: `max(1, ceil(decay_ms / step_ms))`
(the Python float division modelled as exact rational ceiling). -/
def decay_steps (step_ms decay_ms : Nat) : Nat :=
  max 1 ((decay_ms + step_ms - 1) / step_ms)

/-- `STEP_MS` from `simulation.py`. -/
def STEP_MS : Nat := 120

/-- `STATIONARY_DECAY_MS` from `simulation.py`. -/
def STATIONARY_DECAY_MS : Nat := 250

/-- The sink-claim map a tick starts from: cleared when the water map is empty
at the start of the tick (`SimulationEngine.tick`). -/
def tickClaims0 (state : SimulationState) : List (Coord × Nat) :=
  if state.water = [] then [] else state.sink_claims

/-- The post-spawn water map of a tick. -/
def tickWater1 (world : GridWorld) (state : SimulationState) :
    List (Coord × WaterCell) :=
  (spawn_from_emitters world state.water (akeys state.water)).1

/-- The proposals of a tick (built over the post-spawn water map with the
start-of-tick claims). -/
def tickProposals (world : GridWorld) (state : SimulationState) :
    List (Coord × Proposal) :=
  build_proposals world (tickClaims0 state) (tickWater1 world state)

/-- The grouped targets of a tick. -/
def tickTargets (world : GridWorld) (state : SimulationState) :
    List (Coord × List Mover) :=
  group_targets (tickProposals world state)

/-- The inflow map of a tick. -/
def tickInflow (world : GridWorld) (state : SimulationState) :
    List (Coord × List Nat) :=
  build_inflow_targets (tickTargets world state)

/-- The selected edges and updated claims of a tick. `prev_owner` is the
pre-spawn snapshot taken in `MovementResolver.__init__`. -/
def tickEdgesClaims (world : GridWorld) (state : SimulationState) :
    List (Coord × Edge) × List (Coord × Nat) :=
  select_edges world (tickWater1 world state) (prev_owner_map state.water)
    (tickClaims0 state) (tickTargets world state)

/-- The candidate next water map of a tick, before pruning. -/
def tickNextWater (world : GridWorld) (state : SimulationState)
    (dsteps : Nat) : List (Coord × WaterCell) :=
  advance_water world.sinks (tickWater1 world state)
    (tickEdgesClaims world state).1 (tickInflow world state) dsteps

/-- `SimulationEngine.tick`: clear claims when water is empty, spawn, propose,
group, select, advance, prune, commit. -/
def tick (world : GridWorld) (dsteps : Nat) (state : SimulationState) :
    SimulationState :=
  ⟨prune (tickNextWater world state dsteps) world.emitters,
    (tickEdgesClaims world state).2⟩

/-- `tick` iterated `n` times (the DSL's `advance_steps` loop). -/
def tickN (world : GridWorld) (dsteps : Nat) (state : SimulationState) :
    Nat → SimulationState
  | 0 => state
  | n + 1 => tickN world dsteps (tick world dsteps state) n

/-- `handle_wait_ms` from `dsl.py`: the number of ticks the `wait_ms`/`sleep`
command executes, `max(1, ceil(ms / STEP_MS))` (float ceiling modelled as
exact rational ceiling), each step one engine tick. -/
def waitMsTicks (ms : Nat) : Nat :=
  max 1 ((ms + STEP_MS - 1) / STEP_MS)

/-- The effect of the DSL `wait_ms`/`sleep` command on a simulation state:
`advance_steps(handle_wait_ms)` runs `waitMsTicks ms` engine ticks. -/
def dslWaitMs (world : GridWorld) (dsteps : Nat) (ms : Nat)
    (state : SimulationState) : SimulationState :=
  tickN world dsteps state (waitMsTicks ms)

/-- The tick count the spec attributes to `wait_ms`: plain ceiling division of
the milliseconds by the tick duration. -/
def specCeilTicks (ms : Nat) : Nat :=
  (ms + STEP_MS - 1) / STEP_MS

/-- Scenario A world `#>..S#`: walls at columns 0 and 5, emitter id 0 at
column 1 facing right, sink at column 4, single row. -/
def worldA : GridWorld := ⟨6, 1, [(0, 0), (5, 0)], [⟨0, 1, 0, 1, 0⟩], [(4, 0)]⟩

/-- Dead-end world `#>..#`: walls at columns 0 and 4, emitter id 0 at
column 1 facing right, no sinks, single row. -/
def worldC : GridWorld := ⟨5, 1, [(0, 0), (4, 0)], [⟨0, 1, 0, 1, 0⟩], []⟩

/-- The empty start state. -/
def emptyState : SimulationState := ⟨[], []⟩

/-- The steady state scenario A actually reaches from tick 2 on: one cell at
column 3 and the sink claimed by emitter 0. -/
def steadyA : SimulationState :=
  ⟨[((3, 0), ⟨1, 0, 0, 0, true⟩)], [((4, 0), 0)]⟩

/-- The aging rule as claimed (refresh on inflow from a *different* emitter):
`0` when the cell moved, `0` when the inflow set at its final coordinate holds
an id other than its own, `age + 1` otherwise. -/
def ageRuleDifferent (moved : Bool) (inflow : List Nat) (own age : Nat) : Nat :=
  if moved then 0
  else if inflow.any (fun i => decide (i ≠ own)) then 0
  else age + 1

/-- The aging rule the code implements (refresh on inflow containing the
cell's *own* emitter id): `0` when the cell moved, `0` when refreshed,
`age + 1` otherwise. -/
def ageRuleOwn (moved refreshed : Bool) (age : Nat) : Nat :=
  if moved then 0 else if refreshed then 0 else age + 1

/-- The selected edges of scenario `worldC` at tick 3 (only the cell at
column 2 has an edge). -/
def edgesC2 : List (Coord × Edge) :=
  (tickEdgesClaims worldC (tickN worldC 3 emptyState 2)).1

/-- The occupied set of scenario `worldC` at tick 3. -/
def occC2 : List Coord := akeys (tickWater1 worldC (tickN worldC 3 emptyState 2))

/-- The inflow map of scenario `worldC` at tick 3. -/
def inflowC2 : List (Coord × List Nat) := tickInflow worldC (tickN worldC 3 emptyState 2)

/-- The refreshed cell at column 3 of scenario `worldC`. -/
def cell30 : WaterCell := ⟨1, 0, 0, 0, true⟩

/-- A coordinate that water may legally occupy: in bounds and not a wall,
emitter, or sink tile. -/
def goodCoord (world : GridWorld) (p : Coord) : Prop :=
  in_bounds p.1 p.2 world.w world.h = true ∧ p ∉ world.walls ∧
    p ∉ emitter_positions world ∧ p ∉ world.sinks

/-- The GridWorld disjointness precondition: wall, emitter, and sink
coordinate sets are pairwise disjoint. -/
def disjointGeometry (world : GridWorld) : Prop :=
  (∀ p ∈ world.walls, p ∉ emitter_positions world ∧ p ∉ world.sinks) ∧
    ∀ p ∈ emitter_positions world, p ∉ world.sinks

/-- The claim's reading of "moving straight": the proposed direction equals
the direction of the cell at the mover's source in the proposal-time water
map. -/
def specStraight (water : List (Coord × WaterCell)) (m : Mover) : Prop :=
  ∃ c, alook water m.src = some c ∧ m.ndx = c.dx ∧ m.ndy = c.dy

/-- The claim's strict preference order between two movers contesting a
non-sink target: (a) owning the target's start-of-tick occupant wins;
(b) else moving straight wins over turning; (c) else the smaller source row,
then the smaller source column, wins. -/
def specBeats (water : List (Coord × WaterCell)) (prev : List (Coord × Nat))
    (t : Coord) (m1 m2 : Mover) : Prop :=
  (alook prev t = some m1.eid ∧ ¬ alook prev t = some m2.eid) ∨
  ((alook prev t = some m1.eid ↔ alook prev t = some m2.eid) ∧
    ((specStraight water m1 ∧ ¬ specStraight water m2) ∨
      ((specStraight water m1 ↔ specStraight water m2) ∧
        (m1.src.2 < m2.src.2 ∨ (m1.src.2 = m2.src.2 ∧ m1.src.1 < m2.src.1)))))

/-- Scenario B world: two emitters (right-facing id 0 at (0,1), down-facing
id 1 at (1,0)), no walls or sinks. -/
def worldB : GridWorld := ⟨3, 3, [], [⟨0, 0, 1, 1, 0⟩, ⟨1, 1, 0, 0, 1⟩], []⟩

/-- Two cells of different owners both about to propose `(2,1)`. -/
def waterB : List (Coord × WaterCell) :=
  [((1, 1), ⟨1, 0, 0, 0, true⟩), ((2, 0), ⟨0, 1, 0, 1, true⟩)]

/-- The proposals of `waterB` (both target `(2,1)`). -/
def proposalsB : List (Coord × Proposal) := build_proposals worldB [] waterB

/-- The rightward mover from `(1,1)`. -/
def moverA : Mover := ⟨(1, 1), 1, 0, 0, true⟩

/-- The downward mover from `(2,0)`. -/
def moverB : Mover := ⟨(2, 0), 0, 1, 1, true⟩

/-- The distinct target coordinates of an edge map. -/
def targetsOf (edges : List (Coord × Edge)) : List Coord :=
  (edges.map (fun kv => kv.2.tgt)).dedup

/-- A 2×2 block of four cells rotating clockwise. -/
def waterCyc : List (Coord × WaterCell) :=
  [((0, 0), ⟨1, 0, 0, 0, true⟩), ((1, 0), ⟨0, 1, 0, 0, true⟩),
    ((1, 1), ⟨-1, 0, 0, 0, true⟩), ((0, 1), ⟨0, -1, 0, 0, true⟩)]

/-- The four loop edges: each cell targets the next cell's position. -/
def edgesCyc : List (Coord × Edge) :=
  [((0, 0), ⟨(1, 0), 1, 0, 0, true⟩), ((1, 0), ⟨(1, 1), 0, 1, 0, true⟩),
    ((1, 1), ⟨(0, 1), -1, 0, 0, true⟩), ((0, 1), ⟨(0, 0), 0, -1, 0, true⟩)]

/-- The loop's positions. -/
def psCyc : List Coord := [(0, 0), (1, 0), (1, 1), (0, 1)]

def waterU : List (Coord × WaterCell) :=
  [((1, 0), ⟨1, 0, 0, 0, true⟩), ((2, 0), ⟨1, 0, 0, 0, true⟩)]

def targetsU : List (Coord × List Mover) :=
  group_targets (build_proposals worldC [] waterU)

def inflowU : List (Coord × List Nat) := build_inflow_targets targetsU

def prevU : List (Coord × Nat) := prev_owner_map waterU

def edgesU : List (Coord × Edge) :=
  (select_edges worldC waterU prevU [] targetsU).1

/-! ### Association-list lemmas -/

theorem alook_aset_self {κ α : Type} [DecidableEq κ] (l : List (κ × α))
    (k : κ) (v : α) : alook (aset l k v) k = some v := by
  induction l with
  | nil => simp [aset, alook]
  | cons hd tl ih =>
      by_cases h : hd.1 = k
      · simp [aset, h, alook]
      · simp [aset, h, alook, ih]

theorem alook_aset_ne {κ α : Type} [DecidableEq κ] (l : List (κ × α))
    (k k' : κ) (v : α) (hne : k' ≠ k) :
    alook (aset l k v) k' = alook l k' := by
  induction l with
  | nil => simp [aset, alook, Ne.symm hne]
  | cons hd tl ih =>
      obtain ⟨a, b⟩ := hd
      by_cases h : a = k
      · subst h
        simp [aset, alook, Ne.symm hne]
      · by_cases h' : a = k'
        · simp [aset, alook, h, h', hne]
        · simp [aset, alook, h, h', ih]

theorem alook_none_iff {κ α : Type} [DecidableEq κ] (l : List (κ × α))
    (k : κ) : alook l k = none ↔ k ∉ akeys l := by
  induction l with
  | nil => simp [alook, akeys]
  | cons hd tl ih =>
      by_cases h : hd.1 = k
      · simp [alook, h, akeys]
      · simp [alook, h, akeys, ih, Ne.symm h]

theorem alook_isSome_iff {κ α : Type} [DecidableEq κ] (l : List (κ × α))
    (k : κ) : (alook l k).isSome ↔ k ∈ akeys l := by
  rcases h : alook l k with _ | v
  · simpa [h] using (alook_none_iff l k).mp h
  · have : k ∈ akeys l := by
      by_contra hk
      rw [(alook_none_iff l k).mpr hk] at h
      exact Option.noConfusion h
    simpa [h] using this

theorem mem_of_alook {κ α : Type} [DecidableEq κ] {l : List (κ × α)}
    {k : κ} {v : α} (h : alook l k = some v) : (k, v) ∈ l := by
  induction l with
  | nil => simp [alook] at h
  | cons hd tl ih =>
      obtain ⟨a, b⟩ := hd
      by_cases hk : a = k
      · subst hk
        rw [alook, if_pos rfl] at h
        obtain rfl := Option.some_injective _ h
        exact List.mem_cons_self _ _
      · rw [alook, if_neg hk] at h
        exact List.mem_cons_of_mem _ (ih h)

theorem alook_of_mem_nodup {κ α : Type} [DecidableEq κ] {l : List (κ × α)}
    {k : κ} {v : α} (hnd : (akeys l).Nodup) (hm : (k, v) ∈ l) :
    alook l k = some v := by
  induction l with
  | nil => simp at hm
  | cons hd tl ih =>
      rcases List.mem_cons.mp hm with h | h
      · subst h
        simp [alook]
      · have hk : hd.1 ≠ k := by
          intro hkeq
          have : k ∈ akeys tl := List.mem_map.mpr ⟨(k, v), h, rfl⟩
          rw [akeys, List.map_cons] at hnd
          exact (List.nodup_cons.mp hnd).1 (hkeq ▸ this)
        rw [alook, if_neg hk]
        exact ih (List.nodup_cons.mp (by rw [akeys, List.map_cons] at hnd; exact hnd)).2 h

theorem akeys_aset_of_mem {κ α : Type} [DecidableEq κ] (l : List (κ × α))
    (k : κ) (v : α) (h : k ∈ akeys l) : akeys (aset l k v) = akeys l := by
  induction l with
  | nil => simp [akeys] at h
  | cons hd tl ih =>
      obtain ⟨a, b⟩ := hd
      by_cases hk : a = k
      · simp [aset, hk, akeys]
      · rw [akeys, List.map_cons] at h
        rcases List.mem_cons.mp h with h' | h'
        · exact absurd h'.symm hk
        · have := ih h'
          simp only [akeys] at this
          simp [aset, hk, akeys, this]

theorem akeys_aset_of_not_mem {κ α : Type} [DecidableEq κ] (l : List (κ × α))
    (k : κ) (v : α) (h : k ∉ akeys l) :
    akeys (aset l k v) = akeys l ++ [k] := by
  induction l with
  | nil => simp [aset, akeys]
  | cons hd tl ih =>
      obtain ⟨a, b⟩ := hd
      rw [akeys, List.map_cons, List.mem_cons] at h
      push_neg at h
      obtain ⟨h1, h2⟩ := h
      have := ih h2
      simp only [akeys] at this
      simp [aset, Ne.symm h1, akeys, this]

theorem nodup_akeys_aset {κ α : Type} [DecidableEq κ] (l : List (κ × α))
    (k : κ) (v : α) (h : (akeys l).Nodup) : (akeys (aset l k v)).Nodup := by
  by_cases hk : k ∈ akeys l
  · rwa [akeys_aset_of_mem l k v hk]
  · rw [akeys_aset_of_not_mem l k v hk]
    exact List.Nodup.append h (List.nodup_singleton k)
      (by simpa [List.disjoint_singleton] using hk)

theorem tickN_succ_right (world : GridWorld) (dsteps : Nat)
    (state : SimulationState) (n : Nat) :
    tickN world dsteps state (n + 1) = tick world dsteps (tickN world dsteps state n) := by
  induction n generalizing state with
  | zero => rfl
  | succ m ih => exact ih (tick world dsteps state)

/-- C2 counterexample: in scenario A the cell spawned at column 2 moves in the
same tick, so after tick 1 the water map holds exactly one cell at column 3
and nothing at column 2, contradicting the claimed tick-1 position. -/
theorem scenarioA_tick1_counterexample :
    (tickN worldA 3 emptyState 1).water = [((3, 0), ⟨1, 0, 0, 0, true⟩)] ∧
      alook (tickN worldA 3 emptyState 1).water (2, 0) = none := by
  constructor <;> rfl

/-- C2 (amended): after tick 1 scenario A has exactly one cell, at column 3,
with no sink claim; from tick 2 onward the state is steady (one cell at
column 3, the sink at column 4 claimed by emitter 0, the cell entering the
sink consumed and replaced each tick); the water map is never empty, so
`sink_claims` is never reset. -/
theorem scenarioA_actual (n : Nat) (h : 2 ≤ n) :
    tickN worldA 3 emptyState 1 = ⟨[((3, 0), ⟨1, 0, 0, 0, true⟩)], []⟩ ∧
      tickN worldA 3 emptyState n = steadyA ∧ steadyA.water ≠ [] := by
  refine ⟨rfl, ?_, by decide⟩
  induction n, h using Nat.le_induction with
  | base => rfl
  | succ m hm ih =>
      rw [tickN_succ_right, ih]
      rfl

/-- C2 witness: the amended statement instantiated at tick 5. -/
theorem scenarioA_actual_witness :
    2 ≤ 5 ∧
      (tickN worldA 3 emptyState 1 = ⟨[((3, 0), ⟨1, 0, 0, 0, true⟩)], []⟩ ∧
        tickN worldA 3 emptyState 5 = steadyA ∧ steadyA.water ≠ []) :=
  ⟨by decide, scenarioA_actual 5 (by decide)⟩

/-- C9 counterexample: at `ms = 0` the `wait_ms` handler executes
`max(1, ceil(0 / STEP_MS)) = 1` tick, not `ceil(0 / STEP_MS) = 0`; on
scenario A's world one tick from the empty state visibly changes the state. -/
theorem waitMs_zero_counterexample :
    waitMsTicks 0 = 1 ∧ specCeilTicks 0 = 0 ∧
      dslWaitMs worldA 3 0 emptyState ≠ tickN worldA 3 emptyState (specCeilTicks 0) := by
  exact ⟨rfl, rfl, by decide⟩

/-- C9 (amended): for every positive `ms`, `wait_ms`/`sleep` advances the
simulation by exactly `ceil(ms / STEP_MS)` ticks; at `ms = 0` it advances by
one tick (the `max(1, ·)` floor). -/
theorem waitMs_advances_ceil_ticks (world : GridWorld) (dsteps ms : Nat)
    (state : SimulationState) (h : 1 ≤ ms) :
    dslWaitMs world dsteps ms state = tickN world dsteps state (specCeilTicks ms) := by
  unfold dslWaitMs waitMsTicks specCeilTicks
  congr 1
  have hpos : (0 : Nat) < STEP_MS := by decide
  have h1 : 1 ≤ (ms + STEP_MS - 1) / STEP_MS := by
    rw [Nat.one_le_div_iff hpos]
    omega
  omega

/-- C9 witness: the amended statement instantiated at `ms = 250` on scenario
A's world. -/
theorem waitMs_advances_ceil_ticks_witness :
    1 ≤ 250 ∧
      dslWaitMs worldA 3 250 emptyState = tickN worldA 3 emptyState (specCeilTicks 250) :=
  ⟨by decide, waitMs_advances_ceil_ticks worldA 3 250 emptyState (by decide)⟩

/-- C1 counterexample: in the dead-end world `#>..#` at tick 3, the cell at
column 3 has no edge (it lost the collision for its own tile) and stays; the
only inflow into `(3,0)` is from its own emitter 0, so the claim's
different-emitter rule predicts age `0 + 1 = 1`, but the committed cell keeps
age `0` (own-id contact refresh). -/
theorem advance_age_rule_counterexample :
    alook (tickN worldC 3 emptyState 2).water (3, 0) = some ⟨1, 0, 0, 0, true⟩ ∧
    alook (tickEdgesClaims worldC (tickN worldC 3 emptyState 2)).1 (3, 0) = none ∧
    inflowIds (tickInflow worldC (tickN worldC 3 emptyState 2)) (3, 0) = [0] ∧
    ageRuleDifferent false [0] 0 0 = 1 ∧
    alook (tickNextWater worldC (tickN worldC 3 emptyState 2) 3) (3, 0)
      = some ⟨1, 0, 0, 0, true⟩ := by
  refine ⟨rfl, rfl, rfl, rfl, rfl⟩

/-- Case analysis of `cell_commit`: every committed cell obeys the own-id
refresh aging rule and the decay bound. -/
theorem cell_commit_some_spec (sinks : List Coord)
    (edges : List (Coord × Edge)) (occupied_now : List Coord)
    (inflow_targets : List (Coord × List Nat)) (dsteps fuel : Nat)
    (memo memo' : List (Coord × Bool)) (p q : Coord) (c v : WaterCell)
    (h : cell_commit sinks edges occupied_now inflow_targets dsteps fuel memo (p, c)
      = (some (q, v), memo')) :
    v.age = ageRuleOwn (decide (q ≠ p))
        (decide (v.emitter_id ∈ inflowIds inflow_targets q)) c.age ∧
      v.age < dsteps := by
  rcases he : alook edges p with _ | e <;>
    simp only [cell_commit, he] at h <;>
    split_ifs at h <;>
    first
      | (simp only [Prod.mk.injEq, Option.some.injEq] at h
         obtain ⟨⟨rfl, rfl⟩, -⟩ := h
         simp_all [ageRuleOwn])
      | simp at h

/-- C1 (amended): in the aging-and-commit step, a committed cell's age is 0
when its position actually changed, and otherwise is 0 exactly when the inflow
set of its coordinate contains its *own* emitter id (contact refresh by its own
stream), else the old age plus one. -/
theorem advance_age_own_inflow_rule (sinks : List Coord)
    (edges : List (Coord × Edge)) (occupied_now : List Coord)
    (inflow_targets : List (Coord × List Nat)) (dsteps fuel : Nat)
    (memo memo' : List (Coord × Bool)) (p q : Coord) (c v : WaterCell)
    (h : cell_commit sinks edges occupied_now inflow_targets dsteps fuel memo (p, c)
      = (some (q, v), memo')) :
    v.age = ageRuleOwn (decide (q ≠ p))
        (decide (v.emitter_id ∈ inflowIds inflow_targets q)) c.age :=
  (cell_commit_some_spec sinks edges occupied_now inflow_targets dsteps fuel
    memo memo' p q c v h).1

/-- C1 witness: the amended rule applied to the concrete dead-end scenario's
staying cell at `(3,0)` (no edge, own-id inflow, age stays 0). -/
theorem advance_age_own_inflow_rule_witness :
    cell_commit worldC.sinks edgesC2 occC2 inflowC2 3 2 [] ((3, 0), cell30)
      = (some ((3, 0), cell30), []) ∧
    cell30.age = ageRuleOwn (decide (((3, 0) : Coord) ≠ (3, 0)))
        (decide (cell30.emitter_id ∈ inflowIds inflowC2 (3, 0))) cell30.age := by
  have h : cell_commit worldC.sinks edgesC2 occC2 inflowC2 3 2 [] ((3, 0), cell30)
      = (some ((3, 0), cell30), []) := by decide
  exact ⟨h, advance_age_own_inflow_rule worldC.sinks edgesC2 occC2 inflowC2 3 2
    [] [] (3, 0) (3, 0) cell30 cell30 h⟩

/-! ### C6 -/

theorem mem_aset {κ α : Type} [DecidableEq κ] {l : List (κ × α)} {k a : κ}
    {v b : α} (h : (a, b) ∈ aset l k v) : (a, b) ∈ l ∨ (a = k ∧ b = v) := by
  induction l with
  | nil => simpa [aset] using h
  | cons hd tl ih =>
      obtain ⟨x, y⟩ := hd
      by_cases hk : x = k
      · subst hk
        simp only [aset, if_pos rfl] at h
        rcases List.mem_cons.mp h with h' | h'
        · right
          exact ⟨congrArg Prod.fst h', congrArg Prod.snd h'⟩
        · exact Or.inl (List.mem_cons_of_mem _ h')
      · simp only [aset, if_neg hk] at h
        rcases List.mem_cons.mp h with h' | h'
        · exact Or.inl (List.mem_cons.mpr (Or.inl h'))
        · rcases ih h' with h'' | h''
          · exact Or.inl (List.mem_cons_of_mem _ h'')
          · exact Or.inr h''

/-- Every entry of the pre-prune next water map has age below `decay_steps`.
-/
theorem advance_water_age_lt (sinks : List Coord)
    (water : List (Coord × WaterCell)) (edges : List (Coord × Edge))
    (inflow_targets : List (Coord × List Nat)) (dsteps : Nat)
    (q : Coord) (v : WaterCell)
    (h : (q, v) ∈ advance_water sinks water edges inflow_targets dsteps) :
    v.age < dsteps := by
  unfold advance_water at h
  set occ := akeys water with hocc
  set fuel := edges.length + 1 with hfuel
  suffices H : ∀ (l : List (Coord × WaterCell))
      (acc : List (Coord × WaterCell) × List (Coord × Bool)),
      (∀ q' v', (q', v') ∈ acc.1 → v'.age < dsteps) →
      (q, v) ∈ (l.foldl (advance_step sinks edges occ inflow_targets dsteps fuel) acc).1 →
      v.age < dsteps by
    exact H water ([], []) (by simp) h
  intro l
  induction l with
  | nil => intro acc hacc hm; exact hacc q v hm
  | cons hd tl ih =>
      intro acc hacc hm
      refine ih _ ?_ hm
      intro q' v' hm'
      rcases hc : (cell_commit sinks edges occ inflow_targets dsteps fuel acc.2 hd).1
        with _ | qv
      · simp only [advance_step, hc] at hm'
        exact hacc q' v' hm'
      · simp only [advance_step, hc] at hm'
        rcases mem_aset hm' with h' | ⟨rfl, rfl⟩
        · exact hacc q' v' h'
        · obtain ⟨p0, c0⟩ := hd
          obtain ⟨q1, v1⟩ := qv
          refine (cell_commit_some_spec sinks edges occ inflow_targets dsteps fuel
            acc.2 ((cell_commit sinks edges occ inflow_targets dsteps fuel acc.2 (p0, c0)).2)
            p0 q1 c0 v1 ?_).2
          rw [← hc]

/-- Cells of the committed (post-prune) next state all have age below
`decay_steps`. -/
theorem tick_age_lt (world : GridWorld) (dsteps : Nat) (state : SimulationState)
    (q : Coord) (v : WaterCell) (h : (q, v) ∈ (tick world dsteps state).water) :
    v.age < dsteps := by
  unfold tick at h
  simp only at h
  have h' := List.mem_filter.mp h
  exact advance_water_age_lt world.sinks _ _ _ dsteps q v h'.1

/-- C6: `decay_steps` is the ceiling of `decay_ms / step_ms` with minimum 1
(`= 3` at 120/250); every cell of every reachable water map has
`0 ≤ age < decay_steps`; and in the concrete dead-end world the cell at
column 2, which neither moves nor is refreshed, is present with age 2 after
tick 3 and dropped during tick 4. -/
theorem age_bound_and_decay :
    decay_steps 120 250 = 3 ∧
    (∀ (step_ms decay_ms : Nat) (world : GridWorld) (n : Nat) (q : Coord)
      (v : WaterCell),
      (q, v) ∈ (tickN world (decay_steps step_ms decay_ms) emptyState n).water →
      0 ≤ v.age ∧ v.age < decay_steps step_ms decay_ms) ∧
    alook (tickN worldC (decay_steps 120 250) emptyState 3).water (2, 0)
      = some ⟨1, 0, 2, 0, true⟩ ∧
    alook (tickN worldC (decay_steps 120 250) emptyState 4).water (2, 0) = none := by
  refine ⟨rfl, ?_, rfl, rfl⟩
  intro step_ms decay_ms world n q v h
  refine ⟨Nat.zero_le _, ?_⟩
  cases n with
  | zero => simp [tickN, emptyState] at h
  | succ m =>
      rw [tickN_succ_right] at h
      exact tick_age_lt world _ _ q v h

/-- C6 witness: the age-bound conjunct applied to the concrete cell at
column 2 after tick 3 of the dead-end world (age 2 < 3). -/
theorem age_bound_and_decay_witness :
    (((2, 0) : Coord), (⟨1, 0, 2, 0, true⟩ : WaterCell))
        ∈ (tickN worldC (decay_steps 120 250) emptyState 3).water ∧
      (0 ≤ (3 - 1 : Nat) ∧ (⟨1, 0, 2, 0, true⟩ : WaterCell).age < decay_steps 120 250) :=
  ⟨by decide, age_bound_and_decay.2.1 120 250 worldC 3 (2, 0) ⟨1, 0, 2, 0, true⟩
    (by decide)⟩

/-! ### Membership lemmas for the tick pipeline -/

theorem foldl_invariant {α β : Type} (f : β → α → β) (P : β → Prop)
    (l : List α) (b : β) (hb : P b)
    (hf : ∀ acc a, a ∈ l → P acc → P (f acc a)) : P (l.foldl f b) := by
  induction l generalizing b with
  | nil => exact hb
  | cons hd tl ih =>
      exact ih (f b hd) (hf b hd (List.mem_cons_self _ _) hb)
        (fun acc a ha => hf acc a (List.mem_cons_of_mem _ ha))

theorem pickMin_mem {κ : Type} (lt : κ → κ → Bool) (key : Mover → κ)
    (m0 : Mover) (rest : List Mover) :
    pickMin lt key m0 rest = m0 ∨ pickMin lt key m0 rest ∈ rest := by
  induction rest generalizing m0 with
  | nil => exact Or.inl rfl
  | cons m tl ih =>
      rw [pickMin]
      split
      · rcases ih m with h | h
        · exact Or.inr (by rw [h]; exact List.mem_cons_self _ _)
        · exact Or.inr (List.mem_cons_of_mem _ h)
      · rcases ih m0 with h | h
        · exact Or.inl h
        · exact Or.inr (List.mem_cons_of_mem _ h)

/-- The coordinates a `turn_ok`-approved candidate satisfies. -/
theorem turn_ok_spec (world : GridWorld) (claims : List (Coord × Nat))
    (eid : Nat) (n : Coord) (h : turn_ok world claims eid n = true) :
    in_bounds n.1 n.2 world.w world.h = true ∧ n ∉ world.walls ∧
      n ∉ emitter_positions world := by
  simp only [turn_ok, Bool.and_eq_true, Bool.not_eq_true', decide_eq_false_iff_not]
    at h
  exact ⟨h.1.1.1, h.1.1.2, h.1.2⟩

/-- A forward tile that is not blocked is in bounds, not a wall, and not an
emitter tile. -/
theorem forward_blocked_false (world : GridWorld) (claims : List (Coord × Nat))
    (p : Coord) (c : WaterCell)
    (h : forward_blocked world claims p c = false) :
    in_bounds (forward_coord p c).1 (forward_coord p c).2 world.w world.h = true ∧
      forward_coord p c ∉ world.walls ∧
      forward_coord p c ∉ emitter_positions world := by
  simp only [forward_blocked] at h
  have hfb0 : (!(in_bounds (forward_coord p c).1 (forward_coord p c).2 world.w world.h) ||
      decide (forward_coord p c ∈ world.walls) ||
      decide (forward_coord p c ∈ emitter_positions world)) = false := by
    split at h
    · split at h
      · split at h
        · exact absurd h (by simp)
        · exact h
      · exact h
    · exact h
  simp only [Bool.or_eq_false_iff, Bool.not_eq_true', decide_eq_false_iff_not]
    at hfb0
  exact ⟨by simpa using hfb0.1.1, hfb0.1.2, hfb0.2⟩

/-- `_propose_move` output: the key is the source position, the owner is the
cell's, and the target either is the source itself (a stay proposal) or is in
bounds, not a wall, and not an emitter tile. -/
theorem propose_move_spec (world : GridWorld) (claims : List (Coord × Nat))
    (p : Coord) (c : WaterCell) :
    (propose_move world claims p c).1 = p ∧
    (propose_move world claims p c).2.eid = c.emitter_id ∧
    (((propose_move world claims p c).2.nx, (propose_move world claims p c).2.ny) = p ∨
      (in_bounds (propose_move world claims p c).2.nx
          (propose_move world claims p c).2.ny world.w world.h = true ∧
        ((propose_move world claims p c).2.nx, (propose_move world claims p c).2.ny)
          ∉ world.walls ∧
        ((propose_move world claims p c).2.nx, (propose_move world claims p c).2.ny)
          ∉ emitter_positions world)) := by
  unfold propose_move
  split
  · next hfb =>
      rw [Bool.not_eq_true'] at hfb
      have := forward_blocked_false world claims p c hfb
      exact ⟨rfl, rfl, Or.inr ⟨this.1, this.2.1, this.2.2⟩⟩
  · rcases hf : (turn_order c).find?
        (fun d => turn_ok world claims c.emitter_id (p.1 + d.1, p.2 + d.2))
        with _ | d <;> rw [hf]
    · exact ⟨rfl, rfl, Or.inl rfl⟩
    · have hok := List.find?_some hf
      have := turn_ok_spec world claims c.emitter_id (p.1 + d.1, p.2 + d.2)
        (by simpa using hok)
      exact ⟨rfl, rfl, Or.inr this⟩

/-- Every proposal entry comes from a water cell at its key. -/
theorem build_proposals_mem (world : GridWorld) (claims : List (Coord × Nat))
    (water : List (Coord × WaterCell)) (s : Coord) (pr : Proposal)
    (h : (s, pr) ∈ build_proposals world claims water) :
    ∃ c, (s, c) ∈ water ∧ propose_move world claims s c = (s, pr) := by
  obtain ⟨⟨p0, c0⟩, hm, heq⟩ := List.mem_map.mp h
  have hkey := (propose_move_spec world claims p0 c0).1
  have hs : p0 = s := by
    have := congrArg Prod.fst heq
    simpa [hkey] using this
  subst hs
  exact ⟨c0, hm, heq⟩

/-- Every mover recorded under a target by `group_targets` corresponds to a
proposal with that target and those fields. -/
theorem group_targets_mem (proposals : List (Coord × Proposal))
    (t : Coord) (ms : List Mover) (m : Mover)
    (hin : (t, ms) ∈ group_targets proposals) (hm : m ∈ ms) :
    ∃ pr : Proposal, (m.src, pr) ∈ proposals ∧ (pr.nx, pr.ny) = t ∧
      m = ⟨m.src, pr.ndx, pr.ndy, pr.eid, pr.pref⟩ := by
  revert t ms m
  suffices H : ∀ tgts : List (Coord × List Mover),
      (∀ t ms m, (t, ms) ∈ tgts → m ∈ ms →
        ∃ pr : Proposal, (m.src, pr) ∈ proposals ∧ (pr.nx, pr.ny) = t ∧
          m = ⟨m.src, pr.ndx, pr.ndy, pr.eid, pr.pref⟩) →
      ∀ t ms m, (t, ms) ∈ proposals.foldl
          (fun tgts sp =>
            let tt : Coord := (sp.2.nx, sp.2.ny)
            let mm : Mover := ⟨sp.1, sp.2.ndx, sp.2.ndy, sp.2.eid, sp.2.pref⟩
            match alook tgts tt with
            | some ms0 => aset tgts tt (ms0 ++ [mm])
            | none => tgts ++ [(tt, [mm])]) tgts →
        m ∈ ms →
        ∃ pr : Proposal, (m.src, pr) ∈ proposals ∧ (pr.nx, pr.ny) = t ∧
          m = ⟨m.src, pr.ndx, pr.ndy, pr.eid, pr.pref⟩ by
    intro t ms m hin hm
    exact H [] (by simp) t ms m hin hm
  have Hstep : ∀ (sp : Coord × Proposal) (tgts : List (Coord × List Mover)),
      sp ∈ proposals →
      (∀ t ms m, (t, ms) ∈ tgts → m ∈ ms →
        ∃ pr : Proposal, (m.src, pr) ∈ proposals ∧ (pr.nx, pr.ny) = t ∧
          m = ⟨m.src, pr.ndx, pr.ndy, pr.eid, pr.pref⟩) →
      ∀ t ms m,
        (t, ms) ∈ (match alook tgts (sp.2.nx, sp.2.ny) with
          | some ms0 => aset tgts (sp.2.nx, sp.2.ny)
              (ms0 ++ [(⟨sp.1, sp.2.ndx, sp.2.ndy, sp.2.eid, sp.2.pref⟩ : Mover)])
          | none => tgts ++ [((sp.2.nx, sp.2.ny),
              [(⟨sp.1, sp.2.ndx, sp.2.ndy, sp.2.eid, sp.2.pref⟩ : Mover)])]) →
        m ∈ ms →
        ∃ pr : Proposal, (m.src, pr) ∈ proposals ∧ (pr.nx, pr.ny) = t ∧
          m = ⟨m.src, pr.ndx, pr.ndy, pr.eid, pr.pref⟩ := by
    intro sp tgts hsp hInv t ms m hin hm
    rcases ha : alook tgts (sp.2.nx, sp.2.ny) with _ | ms0 <;> rw [ha] at hin
    · rcases List.mem_append.mp hin with h' | h'
      · exact hInv t ms m h' hm
      · simp only [List.mem_singleton, Prod.mk.injEq] at h'
        obtain ⟨rfl, rfl⟩ := h'
        simp only [List.mem_singleton] at hm
        subst hm
        exact ⟨sp.2, by simpa using hsp, rfl, rfl⟩
    · rcases mem_aset hin with h' | ⟨rfl, rfl⟩
      · exact hInv t ms m h' hm
      · rcases List.mem_append.mp hm with h'' | h''
        · exact hInv _ ms0 m (mem_of_alook ha) h''
        · simp only [List.mem_singleton] at h''
          subst h''
          exact ⟨sp.2, by simpa using hsp, rfl, rfl⟩
  intro tgts hInv
  have := foldl_invariant
    (fun tgts sp =>
      let tt : Coord := (sp.2.nx, sp.2.ny)
      let mm : Mover := ⟨sp.1, sp.2.ndx, sp.2.ndy, sp.2.eid, sp.2.pref⟩
      match alook tgts tt with
      | some ms0 => aset tgts tt (ms0 ++ [mm])
      | none => tgts ++ [(tt, [mm])])
    (fun acc => ∀ t ms m, (t, ms) ∈ acc → m ∈ ms →
      ∃ pr : Proposal, (m.src, pr) ∈ proposals ∧ (pr.nx, pr.ny) = t ∧
        m = ⟨m.src, pr.ndx, pr.ndy, pr.eid, pr.pref⟩)
    proposals tgts hInv
    (fun acc sp hsp hP => Hstep sp acc hsp hP)
  exact this

/-- Every selected edge belongs to a mover of the grouped target it points at.
-/
theorem select_edges_mem (world : GridWorld) (water : List (Coord × WaterCell))
    (prev : List (Coord × Nat)) (claims : List (Coord × Nat))
    (targets : List (Coord × List Mover)) (s : Coord) (e : Edge)
    (h : (s, e) ∈ (select_edges world water prev claims targets).1) :
    ∃ (t : Coord) (ms : List Mover) (m : Mover), (t, ms) ∈ targets ∧ m ∈ ms ∧
      m.src = s ∧ e = ⟨t, m.ndx, m.ndy, m.eid, m.pref⟩ := by
  refine foldl_invariant (select_step world water prev)
    (fun acc => ∀ s e, (s, e) ∈ acc.1 →
      ∃ (t : Coord) (ms : List Mover) (m : Mover), (t, ms) ∈ targets ∧ m ∈ ms ∧
        m.src = s ∧ e = ⟨t, m.ndx, m.ndy, m.eid, m.pref⟩)
    targets ([], claims) (by simp) ?_ s e h
  intro acc tm htm hP s e hm
  obtain ⟨t0, ms0⟩ := tm
  simp only [select_step] at hm
  split at hm
  · rcases ms0 with _ | ⟨m0, rest⟩
    · exact hP s e hm
    · simp only at hm
      rcases mem_aset hm with h' | ⟨hs, hv⟩
      · exact hP s e h'
      · refine ⟨t0, m0 :: rest, _, htm, ?_, hs.symm ▸ rfl, hv⟩
        by_cases hrest : rest = []
        · simp [hrest]
        · simp only [hrest, if_neg, ite_false]
          rcases pickMin_mem lt3 (sinkKey acc.2 t0) m0 rest with hmm | hmm
          · rw [hmm]; exact List.mem_cons_self _ _
          · exact List.mem_cons_of_mem _ hmm
  · rcases ms0 with _ | ⟨m0, rest⟩
    · exact hP s e hm
    · rcases rest with _ | ⟨m1, rest'⟩
      · simp only at hm
        rcases mem_aset hm with h' | ⟨hs, hv⟩
        · exact hP s e h'
        · exact ⟨t0, [m0], m0, htm, List.mem_singleton_self _, hs.symm ▸ rfl, hv⟩
      · simp only at hm
        rcases mem_aset hm with h' | ⟨hs, hv⟩
        · exact hP s e h'
        · refine ⟨t0, m0 :: m1 :: rest', _, htm, ?_, hs.symm ▸ rfl, hv⟩
          rcases pickMin_mem lt4 (nonSinkKey water prev t0) m0 (m1 :: rest')
            with hmm | hmm
          · rw [hmm]; exact List.mem_cons_self _ _
          · exact List.mem_cons_of_mem _ hmm

/-- Every cell of the post-spawn water map is either an original cell or sits
on an in-bounds, non-wall, non-emitter, non-sink tile. -/
theorem spawn_mem (world : GridWorld) (water : List (Coord × WaterCell))
    (occ : List Coord) (p : Coord) (c : WaterCell)
    (h : (p, c) ∈ (spawn_from_emitters world water occ).1) :
    (p, c) ∈ water ∨
      (in_bounds p.1 p.2 world.w world.h = true ∧ p ∉ world.walls ∧
        p ∉ emitter_positions world ∧ p ∉ world.sinks) := by
  refine foldl_invariant (spawn_step world)
    (fun acc => ∀ p c, (p, c) ∈ acc.1 →
      (p, c) ∈ water ∨
        (in_bounds p.1 p.2 world.w world.h = true ∧ p ∉ world.walls ∧
          p ∉ emitter_positions world ∧ p ∉ world.sinks))
    world.emitters (water, occ) (fun p c hp => Or.inl hp) ?_ p c h
  intro acc e he hP p c hm
  simp only [spawn_step] at hm
  split at hm
  · exact hP p c hm
  · split at hm
    · exact hP p c hm
    · split at hm
      · exact hP p c hm
      · next hb hcond hsink =>
          rcases mem_aset hm with h' | ⟨rfl, rfl⟩
          · exact hP p c h'
          · push_neg at hcond
            refine Or.inr ⟨by simpa using hb, hcond.1, hcond.2.2, hsink⟩

/-- The coordinate a committed cell lands on: its own position, or a selected
non-sink edge target. -/
theorem cell_commit_some_coord (sinks : List Coord)
    (edges : List (Coord × Edge)) (occupied_now : List Coord)
    (inflow_targets : List (Coord × List Nat)) (dsteps fuel : Nat)
    (memo memo' : List (Coord × Bool)) (p q : Coord) (c v : WaterCell)
    (h : cell_commit sinks edges occupied_now inflow_targets dsteps fuel memo (p, c)
      = (some (q, v), memo')) :
    q = p ∨ ∃ e : Edge, alook edges p = some e ∧ q = e.tgt ∧ e.tgt ∉ sinks := by
  rcases he : alook edges p with _ | e <;>
    simp only [cell_commit, he] at h <;>
    split_ifs at h <;>
    first
      | (simp only [Prod.mk.injEq, Option.some.injEq] at h
         obtain ⟨⟨rfl, rfl⟩, -⟩ := h
         first
           | exact Or.inl rfl
           | exact Or.inr ⟨e, rfl, rfl, by assumption⟩)
      | simp at h

/-- Every coordinate of the pre-prune next water map is an existing cell's
position or a non-sink selected edge target. -/
theorem advance_water_mem (sinks : List Coord)
    (water : List (Coord × WaterCell)) (edges : List (Coord × Edge))
    (inflow_targets : List (Coord × List Nat)) (dsteps : Nat)
    (q : Coord) (v : WaterCell)
    (h : (q, v) ∈ advance_water sinks water edges inflow_targets dsteps) :
    (∃ c, (q, c) ∈ water) ∨
      ∃ (s : Coord) (e : Edge), alook edges s = some e ∧ q = e.tgt ∧
        e.tgt ∉ sinks := by
  unfold advance_water at h
  set occ := akeys water with hocc
  set fuel := edges.length + 1 with hfuel
  refine foldl_invariant (advance_step sinks edges occ inflow_targets dsteps fuel)
    (fun acc => ∀ q v, (q, v) ∈ acc.1 →
      (∃ c, (q, c) ∈ water) ∨
        ∃ (s : Coord) (e : Edge), alook edges s = some e ∧ q = e.tgt ∧
          e.tgt ∉ sinks)
    water ([], []) (by simp) ?_ q v h
  intro acc pc hpc hP q v hm
  obtain ⟨p0, c0⟩ := pc
  rcases hc : (cell_commit sinks edges occ inflow_targets dsteps fuel acc.2 (p0, c0)).1
    with _ | qv
  · simp only [advance_step, hc] at hm
    exact hP q v hm
  · simp only [advance_step, hc] at hm
    rcases mem_aset hm with h' | ⟨rfl, rfl⟩
    · exact hP q v h'
    · obtain ⟨q1, v1⟩ := qv
      have hfull : cell_commit sinks edges occ inflow_targets dsteps fuel acc.2 (p0, c0)
          = (some (q1, v1),
            (cell_commit sinks edges occ inflow_targets dsteps fuel acc.2 (p0, c0)).2) := by
        rw [← hc]
      rcases cell_commit_some_coord sinks edges occ inflow_targets dsteps fuel
        acc.2 _ p0 q1 c0 v1 hfull with h' | ⟨e, he, rfl, hns⟩
      · subst h'
        exact Or.inl ⟨c0, hpc⟩
      · exact Or.inr ⟨p0, e, he, rfl, hns⟩

/-- One tick preserves the occupancy invariant. -/
theorem tick_occupancy (world : GridWorld) (dsteps : Nat)
    (state : SimulationState)
    (hstate : ∀ p c, (p, c) ∈ state.water → goodCoord world p) :
    ∀ p c, (p, c) ∈ (tick world dsteps state).water → goodCoord world p := by
  intro p c h
  unfold tick at h
  simp only at h
  have hadv := (List.mem_filter.mp h).1
  have hw1 : ∀ p c, (p, c) ∈ tickWater1 world state → goodCoord world p := by
    intro p c hm
    rcases spawn_mem world state.water (akeys state.water) p c hm with h' | h'
    · exact hstate p c h'
    · exact h'
  rcases advance_water_mem world.sinks (tickWater1 world state)
      (tickEdgesClaims world state).1 (tickInflow world state) dsteps p c hadv
    with ⟨c', hc'⟩ | ⟨s, e, he, rfl, hns⟩
  · exact hw1 p c' hc'
  · obtain ⟨t, ms, m, htm, hmm, hsrc, heq⟩ :=
      select_edges_mem world (tickWater1 world state)
        (prev_owner_map state.water) (tickClaims0 state)
        (tickTargets world state) s e (mem_of_alook he)
    have htgt : e.tgt = t := by rw [heq]
    obtain ⟨pr, hpr, hpt, -⟩ := group_targets_mem (tickProposals world state)
      t ms m htm hmm
    obtain ⟨c0, hc0, hpm⟩ := build_proposals_mem world (tickClaims0 state)
      (tickWater1 world state) m.src pr hpr
    have hspec := propose_move_spec world (tickClaims0 state) m.src c0
    rw [hpm] at hspec
    simp only at hspec
    rw [htgt, ← hpt]
    rcases hspec.2.2 with hstay | hgood
    · rw [hstay]
      exact hw1 m.src c0 hc0
    · refine ⟨hgood.1, hgood.2.1, hgood.2.2, ?_⟩
      rw [hpt, ← htgt]
      exact hns

/-- C5: from the empty state, on a well-formed world, every reachable water
coordinate is in bounds and never a wall, emitter, or sink tile. -/
theorem occupancy_invariant (world : GridWorld) (dsteps n : Nat)
    (p : Coord) (c : WaterCell) (hw : disjointGeometry world)
    (h : (p, c) ∈ (tickN world dsteps emptyState n).water) :
    goodCoord world p := by
  clear hw
  induction n generalizing p c with
  | zero => simp [tickN, emptyState] at h
  | succ m ih =>
      rw [tickN_succ_right] at h
      exact tick_occupancy world dsteps (tickN world dsteps emptyState m)
        (fun p' c' h' => ih p' c' h') p c h

/-- C5 witness: the occupancy invariant applied to the single cell present
after one tick of scenario A. -/
theorem occupancy_invariant_witness :
    disjointGeometry worldA ∧
      ((((3, 0) : Coord), (⟨1, 0, 0, 0, true⟩ : WaterCell))
          ∈ (tickN worldA 3 emptyState 1).water ∧
        goodCoord worldA (3, 0)) :=
  ⟨⟨by decide, by decide⟩,
    by decide,
    occupancy_invariant worldA 3 1 (3, 0) ⟨1, 0, 0, 0, true⟩
      ⟨by decide, by decide⟩ (by decide)⟩

theorem lt3_irrefl (a : Nat × Int × Int) : lt3 a a = false := by
  obtain ⟨x, y, z⟩ := a
  simp [lt3]

theorem lt4_irrefl (a : Nat × Nat × Int × Int) : lt4 a a = false := by
  obtain ⟨x, y, z, w⟩ := a
  simp [lt4, lt3]

theorem lt4_trans {a b c : Nat × Nat × Int × Int} (h1 : lt4 a b = true)
    (h2 : lt4 b c = true) : lt4 a c = true := by
  obtain ⟨a1, a2, a3, a4⟩ := a
  obtain ⟨b1, b2, b3, b4⟩ := b
  obtain ⟨c1, c2, c3, c4⟩ := c
  simp only [lt4, lt3, Bool.or_eq_true, Bool.and_eq_true, decide_eq_true_eq]
    at h1 h2 ⊢
  omega

theorem lt4_not_trans {a b c : Nat × Nat × Int × Int} (h1 : lt4 a b = false)
    (h2 : lt4 b c = false) : lt4 a c = false := by
  obtain ⟨a1, a2, a3, a4⟩ := a
  obtain ⟨b1, b2, b3, b4⟩ := b
  obtain ⟨c1, c2, c3, c4⟩ := c
  simp only [lt4, lt3, Bool.or_eq_false_iff, Bool.and_eq_false_iff,
    decide_eq_false_iff_not, decide_eq_true_eq, Bool.or_eq_true,
    Bool.and_eq_true] at h1 h2 ⊢
  omega

theorem lt4_total {a b : Nat × Nat × Int × Int} (h1 : lt4 a b = false)
    (h2 : lt4 b a = false) : a = b := by
  obtain ⟨a1, a2, a3, a4⟩ := a
  obtain ⟨b1, b2, b3, b4⟩ := b
  simp only [lt4, lt3, Bool.or_eq_false_iff, Bool.and_eq_false_iff,
    decide_eq_false_iff_not, decide_eq_true_eq, Bool.or_eq_true,
    Bool.and_eq_true, Prod.mk.injEq] at h1 h2 ⊢
  omega

/-- `pickMin` never returns an element strictly above another candidate:
no candidate's key is `lt4`-below the result's key. -/
theorem pickMin_not_lt (key : Mover → Nat × Nat × Int × Int) :
    ∀ (rest : List Mover) (m0 x : Mover), x ∈ m0 :: rest →
      lt4 (key x) (key (pickMin lt4 key m0 rest)) = false := by
  intro rest
  induction rest with
  | nil =>
      intro m0 x hx
      simp only [List.mem_singleton] at hx
      subst hx
      exact lt4_irrefl _
  | cons m tl ih =>
      intro m0 x hx
      rw [pickMin]
      by_cases hlt : lt4 (key m) (key m0) = true
      · rw [if_pos hlt]
        rcases List.mem_cons.mp hx with rfl | hx'
        · by_contra hcon
          rw [Bool.not_eq_false] at hcon
          have h2 := lt4_trans hlt hcon
          rw [ih m m (List.mem_cons_self _ _)] at h2
          exact Bool.false_ne_true h2
        · exact ih m x hx'
      · rw [if_neg hlt]
        rcases List.mem_cons.mp hx with rfl | hx'
        · exact ih x x (List.mem_cons_self _ _)
        · rcases List.mem_cons.mp hx' with rfl | hx''
          · have hb := ih m0 m0 (List.mem_cons_self _ _)
            exact lt4_not_trans (by rwa [Bool.not_eq_true] at hlt) hb
          · exact ih m0 x (List.mem_cons_of_mem _ hx'')

/-- Keys of `group_targets` output are distinct. -/
theorem nodup_group_targets (proposals : List (Coord × Proposal)) :
    (akeys (group_targets proposals)).Nodup := by
  refine foldl_invariant _ (fun tgts => (akeys tgts).Nodup) proposals []
    (by simp [akeys]) ?_
  intro acc sp hsp hP
  rcases ha : alook acc (sp.2.nx, sp.2.ny) with _ | ms0
  · simp only [ha]
    have hnm : (sp.2.nx, sp.2.ny) ∉ akeys acc := (alook_none_iff _ _).mp ha
    rw [show akeys (acc ++ [((sp.2.nx, sp.2.ny),
      [(⟨sp.1, sp.2.ndx, sp.2.ndy, sp.2.eid, sp.2.pref⟩ : Mover)])]) =
      akeys acc ++ [(sp.2.nx, sp.2.ny)] by simp [akeys]]
    exact List.Nodup.append hP (List.nodup_singleton _)
      (by simpa [List.disjoint_singleton] using hnm)
  · simp only [ha]
    exact nodup_akeys_aset _ _ _ hP

/-- Two movers with the same source in (possibly different) groups of the same
proposal set are identical and share their group's target. -/
theorem group_targets_src_unique (proposals : List (Coord × Proposal))
    (hnd : (akeys proposals).Nodup) (t1 t2 : Coord) (ms1 ms2 : List Mover)
    (m1 m2 : Mover) (h1 : (t1, ms1) ∈ group_targets proposals)
    (h2 : (t2, ms2) ∈ group_targets proposals) (hm1 : m1 ∈ ms1)
    (hm2 : m2 ∈ ms2) (hsrc : m1.src = m2.src) : t1 = t2 ∧ m1 = m2 := by
  obtain ⟨pr1, hp1, ht1, hf1⟩ := group_targets_mem proposals t1 ms1 m1 h1 hm1
  obtain ⟨pr2, hp2, ht2, hf2⟩ := group_targets_mem proposals t2 ms2 m2 h2 hm2
  have := alook_of_mem_nodup hnd hp1
  have h2' := alook_of_mem_nodup hnd hp2
  rw [hsrc] at this
  rw [this] at h2'
  obtain rfl := Option.some_injective _ h2'
  constructor
  · rw [← ht1, ← ht2]
  · rw [hf1, hf2, hsrc]

/-- `select_step` leaves edge entries of unrelated sources untouched. -/
theorem select_step_preserve (world : GridWorld)
    (water : List (Coord × WaterCell)) (prev : List (Coord × Nat))
    (acc : List (Coord × Edge) × List (Coord × Nat)) (tm : Coord × List Mover)
    (s : Coord) (hs : ∀ m ∈ tm.2, s ≠ m.src) :
    alook (select_step world water prev acc tm).1 s = alook acc.1 s := by
  obtain ⟨t0, ms0⟩ := tm
  simp only [select_step]
  split
  · rcases ms0 with _ | ⟨m0, rest⟩
    · rfl
    · simp only
      refine alook_aset_ne _ _ _ _ (hs _ ?_)
      by_cases hrest : rest = []
      · simp [hrest]
      · simp only [hrest, ite_false]
        rcases pickMin_mem lt3 (sinkKey acc.2 t0) m0 rest with hmm | hmm
        · rw [hmm]; exact List.mem_cons_self _ _
        · exact List.mem_cons_of_mem _ hmm
  · rcases ms0 with _ | ⟨m0, rest⟩
    · rfl
    · rcases rest with _ | ⟨m1, rest'⟩
      · exact alook_aset_ne _ _ _ _ (hs m0 (List.mem_singleton_self _))
      · simp only
        refine alook_aset_ne _ _ _ _ (hs _ ?_)
        rcases pickMin_mem lt4 (nonSinkKey water prev t0) m0 (m1 :: rest')
          with hmm | hmm
        · rw [hmm]; exact List.mem_cons_self _ _
        · exact List.mem_cons_of_mem _ hmm

/-- Folding `select_step` over groups none of which contain source `s` leaves
the edge entry of `s` untouched. -/
theorem foldl_select_preserve (world : GridWorld)
    (water : List (Coord × WaterCell)) (prev : List (Coord × Nat))
    (L : List (Coord × List Mover)) (s : Coord) :
    ∀ (acc : List (Coord × Edge) × List (Coord × Nat)),
      (∀ tm ∈ L, ∀ m ∈ tm.2, s ≠ m.src) →
      alook (L.foldl (select_step world water prev) acc).1 s = alook acc.1 s := by
  induction L with
  | nil => intro acc _; rfl
  | cons tm tl ih =>
      intro acc hs
      rw [List.foldl_cons]
      rw [ih _ (fun tm' htm' m hm => hs tm' (List.mem_cons_of_mem _ htm') m hm)]
      exact select_step_preserve world water prev acc tm s
        (fun m hm => hs tm (List.mem_cons_self _ _) m hm)

/-- The key of `nonSinkKey` determines the mover's source. -/
theorem nonSinkKey_src (water : List (Coord × WaterCell))
    (prev : List (Coord × Nat)) (t : Coord) (m1 m2 : Mover)
    (h : nonSinkKey water prev t m1 = nonSinkKey water prev t m2) :
    m1.src = m2.src := by
  simp only [nonSinkKey, Prod.mk.injEq] at h
  exact Prod.ext h.2.2.2 h.2.2.1

/-- A strict `lt4` win on the code's priority key implies the claim's
preference order, provided both movers are actual cells of the water map. -/
theorem lt4_key_specBeats (water : List (Coord × WaterCell))
    (prev : List (Coord × Nat)) (t : Coord) (m1 m2 : Mover)
    (c1 : WaterCell) (h1 : alook water m1.src = some c1)
    (c2 : WaterCell) (h2 : alook water m2.src = some c2)
    (hlt : lt4 (nonSinkKey water prev t m1) (nonSinkKey water prev t m2) = true) :
    specBeats water prev t m1 m2 := by
  have hs1 : specStraight water m1 ↔ (m1.ndx = c1.dx ∧ m1.ndy = c1.dy) := by
    constructor
    · rintro ⟨c, hc, hx, hy⟩
      rw [h1] at hc
      obtain rfl := Option.some_injective _ hc
      exact ⟨hx, hy⟩
    · rintro ⟨hx, hy⟩
      exact ⟨c1, h1, hx, hy⟩
  have hs2 : specStraight water m2 ↔ (m2.ndx = c2.dx ∧ m2.ndy = c2.dy) := by
    constructor
    · rintro ⟨c, hc, hx, hy⟩
      rw [h2] at hc
      obtain rfl := Option.some_injective _ hc
      exact ⟨hx, hy⟩
    · rintro ⟨hx, hy⟩
      exact ⟨c2, h2, hx, hy⟩
  simp only [nonSinkKey, h1, h2, Option.getD_some] at hlt
  rw [specBeats, hs1, hs2]
  simp only [lt4, lt3, Bool.or_eq_true, Bool.and_eq_true, decide_eq_true_eq]
    at hlt
  split_ifs at hlt with ho1 hb1 ho2 hb2 <;>
    first
      | (simp_all; omega)
      | simp_all

/-- C3: for a non-sink target with at least two movers, exactly one winner
gets a move edge: it strictly beats every other mover in the claim's order
(previous-owner bonus, then straightness, then ascending row/column of the
source), and every losing mover is left without any edge. -/
theorem collision_winner (world : GridWorld) (water : List (Coord × WaterCell))
    (prev claims : List (Coord × Nat)) (proposals : List (Coord × Proposal))
    (t : Coord) (ms : List Mover)
    (hnd : (akeys proposals).Nodup)
    (hmem : (t, ms) ∈ group_targets proposals)
    (hsink : t ∉ world.sinks)
    (hlen : 2 ≤ ms.length)
    (hcells : ∀ m ∈ ms, ∃ c, alook water m.src = some c) :
    ∃ w, w ∈ ms ∧
      alook (select_edges world water prev claims (group_targets proposals)).1 w.src
        = some ⟨t, w.ndx, w.ndy, w.eid, w.pref⟩ ∧
      ∀ m ∈ ms, m ≠ w →
        specBeats water prev t w m ∧
        alook (select_edges world water prev claims (group_targets proposals)).1 m.src
          = none := by
  obtain ⟨L1, L2, hsplit⟩ := List.append_of_mem hmem
  have hkeys : (akeys (group_targets proposals)).Nodup := nodup_group_targets proposals
  rw [hsplit] at hkeys
  simp only [akeys, List.map_append, List.map_cons] at hkeys
  obtain ⟨hnd1, hnd2, hdisj⟩ := List.nodup_append.mp hkeys
  have htL2 : t ∉ L2.map Prod.fst := (List.nodup_cons.mp hnd2).1
  have htL1 : t ∉ L1.map Prod.fst := fun hc =>
    hdisj hc (List.mem_cons_self _ _)
  have hsrc_ne : ∀ x ∈ ms, ∀ tm' : Coord × List Mover,
      tm' ∈ L1 ∨ tm' ∈ L2 → ∀ m' ∈ tm'.2, x.src ≠ m'.src := by
    intro x hx tm' htm' m' hm' hcon
    obtain ⟨t', ms'⟩ := tm'
    have hmem' : (t', ms') ∈ group_targets proposals := by
      rw [hsplit]
      rcases htm' with h | h
      · exact List.mem_append_left _ h
      · exact List.mem_append_right _ (List.mem_cons_of_mem _ h)
    obtain ⟨hteq, -⟩ := group_targets_src_unique proposals hnd t t' ms ms'
      x m' hmem hmem' hx hm' hcon
    rcases htm' with h | h
    · exact htL1 (hteq ▸ List.mem_map.mpr ⟨(t', ms'), h, rfl⟩)
    · exact htL2 (hteq ▸ List.mem_map.mpr ⟨(t', ms'), h, rfl⟩)
  have hsame : ∀ x ∈ ms, ∀ y ∈ ms, x.src = y.src → x = y := by
    intro x hx y hy hxy
    exact (group_targets_src_unique proposals hnd t t ms ms x y hmem hmem hx hy
      hxy).2
  rcases ms with _ | ⟨m0, ms'⟩
  · simp at hlen
  rcases ms' with _ | ⟨m1, rest⟩
  · simp at hlen
  refine ⟨pickMin lt4 (nonSinkKey water prev t) m0 (m1 :: rest), ?_, ?_, ?_⟩
  case _ =>
    rcases pickMin_mem lt4 (nonSinkKey water prev t) m0 (m1 :: rest) with h | h
    · rw [h]; exact List.mem_cons_self _ _
    · exact List.mem_cons_of_mem _ h
  all_goals
    have hwmem : pickMin lt4 (nonSinkKey water prev t) m0 (m1 :: rest)
        ∈ m0 :: m1 :: rest := by
      rcases pickMin_mem lt4 (nonSinkKey water prev t) m0 (m1 :: rest) with h | h
      · rw [h]; exact List.mem_cons_self _ _
      · exact List.mem_cons_of_mem _ h
  all_goals
    have hfold : (select_edges world water prev claims (group_targets proposals)).1
        = (List.foldl (select_step world water prev)
            (select_step world water prev
              (List.foldl (select_step world water prev) ([], claims) L1)
              (t, m0 :: m1 :: rest)) L2).1 := by
      rw [select_edges, hsplit, List.foldl_append, List.foldl_cons]
  all_goals
    have hstep : (select_step world water prev
        (List.foldl (select_step world water prev) ([], claims) L1)
        (t, m0 :: m1 :: rest)).1
        = aset (List.foldl (select_step world water prev) ([], claims) L1).1
            (pickMin lt4 (nonSinkKey water prev t) m0 (m1 :: rest)).src
            ⟨t, (pickMin lt4 (nonSinkKey water prev t) m0 (m1 :: rest)).ndx,
              (pickMin lt4 (nonSinkKey water prev t) m0 (m1 :: rest)).ndy,
              (pickMin lt4 (nonSinkKey water prev t) m0 (m1 :: rest)).eid,
              (pickMin lt4 (nonSinkKey water prev t) m0 (m1 :: rest)).pref⟩ := by
      simp only [select_step, if_neg hsink]
  · rw [hfold]
    rw [foldl_select_preserve world water prev L2 _ _
      (fun tm' htm' m' hm' => hsrc_ne _ hwmem tm' (Or.inr htm') m' hm')]
    rw [hstep]
    exact alook_aset_self _ _ _
  · intro m hm hne
    have hmsrc : m.src ≠ (pickMin lt4 (nonSinkKey water prev t) m0 (m1 :: rest)).src := by
      intro hc
      exact hne (hsame m hm _ hwmem hc)
    constructor
    · have hnlt : lt4 (nonSinkKey water prev t m)
          (nonSinkKey water prev t (pickMin lt4 (nonSinkKey water prev t) m0 (m1 :: rest)))
          = false := pickMin_not_lt (nonSinkKey water prev t) (m1 :: rest) m0 m hm
      have hlt : lt4 (nonSinkKey water prev t (pickMin lt4 (nonSinkKey water prev t) m0 (m1 :: rest)))
          (nonSinkKey water prev t m) = true := by
        by_contra hc
        rw [Bool.not_eq_true] at hc
        have := lt4_total hc hnlt
        exact hmsrc (nonSinkKey_src water prev t _ _ this).symm
      obtain ⟨cw, hcw⟩ := hcells _ hwmem
      obtain ⟨cm, hcm⟩ := hcells m hm
      exact lt4_key_specBeats water prev t _ m cw hcw cm hcm hlt
    · rw [hfold]
      rw [foldl_select_preserve world water prev L2 _ _
        (fun tm' htm' m' hm' => hsrc_ne m hm tm' (Or.inr htm') m' hm')]
      rw [hstep]
      rw [alook_aset_ne _ _ _ _ hmsrc]
      rw [foldl_select_preserve world water prev L1 _ _
        (fun tm' htm' m' hm' => hsrc_ne m hm tm' (Or.inl htm') m' hm')]
      rfl

/-- C3 witness: the collision theorem applied to the concrete two-emitter
contest for `(2,1)`; the mover with the smaller source row wins. -/
theorem collision_winner_witness :
    ((akeys proposalsB).Nodup ∧
      (((2, 1) : Coord), [moverA, moverB]) ∈ group_targets proposalsB ∧
      ((2, 1) : Coord) ∉ worldB.sinks ∧ 2 ≤ ([moverA, moverB] : List Mover).length) ∧
    (∃ w, w ∈ [moverA, moverB] ∧
      alook (select_edges worldB waterB [] [] (group_targets proposalsB)).1 w.src
        = some ⟨(2, 1), w.ndx, w.ndy, w.eid, w.pref⟩ ∧
      ∀ m ∈ [moverA, moverB], m ≠ w →
        specBeats waterB [] (2, 1) w m ∧
        alook (select_edges worldB waterB [] [] (group_targets proposalsB)).1 m.src
          = none) :=
  ⟨⟨by decide, by decide, by decide, by decide⟩,
    collision_winner worldB waterB [] [] proposalsB (2, 1) [moverA, moverB]
      (by decide) (by decide) (by decide) (by decide)
      (by
        intro m hm
        rcases List.mem_cons.mp hm with rfl | hm'
        · exact ⟨⟨1, 0, 0, 0, true⟩, rfl⟩
        · rcases List.mem_cons.mp hm' with rfl | hm''
          · exact ⟨⟨0, 1, 0, 1, true⟩, rfl⟩
          · simp at hm'')⟩

/-- A cell owned by a different emitter than a sink's recorded claim never
proposes that sink (claim exclusivity in `_propose_move`). -/
theorem propose_target_ne_claimed_sink (world : GridWorld)
    (claims : List (Coord × Nat)) (p : Coord) (c : WaterCell) (s : Coord)
    (E : Nat) (hs : s ∈ world.sinks) (hcl : alook claims s = some E)
    (hne : c.emitter_id ≠ E) (hp : p ≠ s) :
    ((propose_move world claims p c).2.nx, (propose_move world claims p c).2.ny)
      ≠ s := by
  unfold propose_move
  split
  · next hfb =>
      intro hcon
      simp only at hcon
      rw [Bool.not_eq_true'] at hfb
      have hfs : forward_coord p c = s := by
        obtain ⟨s1, s2⟩ := s
        obtain ⟨h1, h2⟩ := Prod.mk.injEq _ _ _ _ ▸ hcon
        exact Prod.ext h1 h2
      rw [forward_blocked, hfs] at hfb
      simp only [if_pos hs, hcl] at hfb
      rw [if_pos (Ne.symm hne)] at hfb
      exact absurd hfb (by simp)
  · rcases hf : (turn_order c).find?
        (fun d => turn_ok world claims c.emitter_id (p.1 + d.1, p.2 + d.2))
        with _ | d <;> rw [hf] <;> intro hcon <;> simp only at hcon
    · exact hp (by
        obtain ⟨s1, s2⟩ := s
        obtain ⟨h1, h2⟩ := Prod.mk.injEq _ _ _ _ ▸ hcon
        exact Prod.ext h1 h2)
    · have hok := List.find?_some hf
      rw [show ((p.1 + d.1, p.2 + d.2) : Coord) = s by
        obtain ⟨s1, s2⟩ := s
        obtain ⟨h1, h2⟩ := Prod.mk.injEq _ _ _ _ ▸ hcon
        exact Prod.ext h1 h2] at hok
      rw [turn_ok, if_pos hs, hcl] at hok
      simp only [Bool.and_eq_true, decide_eq_true_eq] at hok
      exact hne hok.2.symm

/-- Claims survive `select_edges` for a sink whose contesting movers all carry
the claim owner's id. -/
theorem select_edges_claim_preserved (world : GridWorld)
    (water : List (Coord × WaterCell)) (prev : List (Coord × Nat))
    (claims : List (Coord × Nat)) (targets : List (Coord × List Mover))
    (s : Coord) (E : Nat) (hcl : alook claims s = some E)
    (hmv : ∀ ms m, (s, ms) ∈ targets → m ∈ ms → m.eid = E) :
    alook (select_edges world water prev claims targets).2 s = some E := by
  refine foldl_invariant (select_step world water prev)
    (fun acc => alook acc.2 s = some E) targets ([], claims) hcl ?_
  intro acc tm htm hP
  obtain ⟨t0, ms0⟩ := tm
  simp only [select_step]
  split
  · rcases ms0 with _ | ⟨m0, rest⟩
    · exact hP
    · simp only
      by_cases hts : t0 = s
      · subst hts
        have hwm : (if rest = [] then m0
            else pickMin lt3 (sinkKey acc.2 t0) m0 rest) ∈ m0 :: rest := by
          by_cases hrest : rest = []
          · simp [hrest]
          · simp only [hrest, ite_false]
            rcases pickMin_mem lt3 (sinkKey acc.2 t0) m0 rest with hmm | hmm
            · rw [hmm]; exact List.mem_cons_self _ _
            · exact List.mem_cons_of_mem _ hmm
        rw [hmv (m0 :: rest) _ htm hwm]
        exact alook_aset_self _ _ _
      · rw [alook_aset_ne _ _ _ _ (fun hc => hts hc.symm)]
        exact hP
  · rcases ms0 with _ | ⟨m0, rest⟩
    · exact hP
    · rcases rest with _ | ⟨m1, rest'⟩ <;> exact hP

/-- One tick of sink exclusivity: with water present and sink `s` claimed by
`E`, no differently-owned cell proposes `s`, every selected edge into `s`
carries id `E`, and the committed claim for `s` is still `E`. -/
theorem tick_sink_exclusivity (world : GridWorld) (dsteps : Nat)
    (state : SimulationState) (s : Coord) (E : Nat)
    (hs : s ∈ world.sinks)
    (hwater : state.water ≠ [])
    (hclaim : alook state.sink_claims s = some E)
    (hocc : ∀ p c, (p, c) ∈ state.water → p ∉ world.sinks) :
    alook (tick world dsteps state).sink_claims s = some E ∧
    (∀ p pr, (p, pr) ∈ tickProposals world state →
      pr.eid ≠ E → ((pr.nx, pr.ny) : Coord) ≠ s) ∧
    (∀ p e, alook (tickEdgesClaims world state).1 p = some e →
      e.tgt = s → e.eid = E) := by
  have hcl0 : alook (tickClaims0 state) s = some E := by
    rw [tickClaims0, if_neg hwater]
    exact hclaim
  have hw1 : ∀ p c, (p, c) ∈ tickWater1 world state → p ≠ s := by
    intro p c hm hcon
    rcases spawn_mem world state.water (akeys state.water) p c hm with h' | h'
    · exact hocc p c h' (hcon ▸ hs)
    · exact h'.2.2.2 (hcon ▸ hs)
  have hprop : ∀ p pr, (p, pr) ∈ tickProposals world state →
      pr.eid ≠ E → ((pr.nx, pr.ny) : Coord) ≠ s := by
    intro p pr hm hne
    obtain ⟨c0, hc0, hpm⟩ := build_proposals_mem world (tickClaims0 state)
      (tickWater1 world state) p pr hm
    have heid := (propose_move_spec world (tickClaims0 state) p c0).2.1
    rw [hpm] at heid
    simp only at heid
    have := propose_target_ne_claimed_sink world (tickClaims0 state) p c0 s E
      hs hcl0 (by rw [← heid]; exact hne) (hw1 p c0 hc0)
    rw [hpm] at this
    exact this
  have hmv : ∀ ms m, (s, ms) ∈ tickTargets world state → m ∈ ms → m.eid = E := by
    intro ms m hmem hm
    obtain ⟨pr, hpr, hpt, hmf⟩ := group_targets_mem (tickProposals world state)
      s ms m hmem hm
    by_contra hne
    have heid : m.eid = pr.eid := by rw [hmf]
    exact hprop m.src pr hpr (by rw [← heid]; exact hne) hpt
  refine ⟨?_, hprop, ?_⟩
  · exact select_edges_claim_preserved world (tickWater1 world state)
      (prev_owner_map state.water) (tickClaims0 state) (tickTargets world state)
      s E hcl0 hmv
  · intro p e he hts
    obtain ⟨t, ms, m, htm, hmm, hsrc, heq⟩ := select_edges_mem world
      (tickWater1 world state) (prev_owner_map state.water) (tickClaims0 state)
      (tickTargets world state) p e (mem_of_alook he)
    have ht : t = s := by rw [← hts, heq]
    subst ht
    have := hmv ms m htm hmm
    rw [heq]
    exact this

/-- One tick preserves "no water cell sits on a sink tile". -/
theorem tick_not_sink (world : GridWorld) (dsteps : Nat)
    (state : SimulationState)
    (hocc : ∀ p c, (p, c) ∈ state.water → p ∉ world.sinks) :
    ∀ p c, (p, c) ∈ (tick world dsteps state).water → p ∉ world.sinks := by
  intro p c h
  unfold tick at h
  simp only at h
  have hadv := (List.mem_filter.mp h).1
  rcases advance_water_mem world.sinks (tickWater1 world state)
      (tickEdgesClaims world state).1 (tickInflow world state) dsteps p c hadv
    with ⟨c', hc'⟩ | ⟨s', e, he, rfl, hns⟩
  · rcases spawn_mem world state.water (akeys state.water) p c' hc' with h' | h'
    · exact hocc p c' h'
    · exact h'.2.2.2
  · exact hns

/-- C4: once sink `s` is claimed by emitter `E`, then along every run of ticks
whose start states all still hold water, the claim stays `E`, no cell of a
different owner ever proposes `s`, and every selected edge into `s` (the only
way a cell is consumed by `s`) carries owner `E`. -/
theorem sink_exclusivity (world : GridWorld) (dsteps : Nat)
    (state : SimulationState) (s : Coord) (E : Nat) (n : Nat)
    (hs : s ∈ world.sinks)
    (hclaim : alook state.sink_claims s = some E)
    (hocc : ∀ p c, (p, c) ∈ state.water → p ∉ world.sinks)
    (hne : ∀ k, k < n → (tickN world dsteps state k).water ≠ []) :
    alook (tickN world dsteps state n).sink_claims s = some E ∧
    ∀ k, k < n →
      (∀ p pr, (p, pr) ∈ tickProposals world (tickN world dsteps state k) →
        pr.eid ≠ E → ((pr.nx, pr.ny) : Coord) ≠ s) ∧
      (∀ p e, alook (tickEdgesClaims world (tickN world dsteps state k)).1 p
          = some e → e.tgt = s → e.eid = E) := by
  have hoccs : ∀ k, ∀ p c, (p, c) ∈ (tickN world dsteps state k).water →
      p ∉ world.sinks := by
    intro k
    induction k with
    | zero => exact hocc
    | succ j ih =>
        rw [tickN_succ_right]
        exact tick_not_sink world dsteps _ ih
  induction n with
  | zero => exact ⟨hclaim, fun k hk => absurd hk (Nat.not_lt_zero k)⟩
  | succ m ih =>
      obtain ⟨hcl_m, hparts⟩ := ih (fun k hk => hne k (Nat.lt_succ_of_lt hk))
      have hper := tick_sink_exclusivity world dsteps
        (tickN world dsteps state m) s E hs (hne m (Nat.lt_succ_self m))
        hcl_m (hoccs m)
      refine ⟨?_, ?_⟩
      · rw [tickN_succ_right]
        exact hper.1
      · intro k hk
        rcases Nat.lt_succ_iff_lt_or_eq.mp hk with hk' | rfl
        · exact hparts k hk'
        · exact ⟨hper.2.1, hper.2.2⟩

/-- C4 witness: exclusivity applied to scenario A's steady state (sink (4,0)
claimed by emitter 0) over two further ticks. -/
theorem sink_exclusivity_witness :
    (((4, 0) : Coord) ∈ worldA.sinks ∧
      alook steadyA.sink_claims (4, 0) = some 0 ∧
      (∀ p c, (p, c) ∈ steadyA.water → p ∉ worldA.sinks) ∧
      (∀ k, k < 2 → (tickN worldA 3 steadyA k).water ≠ [])) ∧
    (alook (tickN worldA 3 steadyA 2).sink_claims (4, 0) = some 0 ∧
      ∀ k, k < 2 →
        (∀ p pr, (p, pr) ∈ tickProposals worldA (tickN worldA 3 steadyA k) →
          pr.eid ≠ 0 → ((pr.nx, pr.ny) : Coord) ≠ (4, 0)) ∧
        (∀ p e, alook (tickEdgesClaims worldA (tickN worldA 3 steadyA k)).1 p
            = some e → e.tgt = (4, 0) → e.eid = 0)) := by
  have hne : ∀ k, k < 2 → (tickN worldA 3 steadyA k).water ≠ [] := by
    intro k hk
    match k, hk with
    | 0, _ => decide
    | 1, _ => decide
  have hoccA : ∀ p c, (p, c) ∈ steadyA.water → p ∉ worldA.sinks := by
    intro p c hm
    simp only [steadyA, List.mem_singleton, Prod.mk.injEq] at hm
    obtain ⟨rfl, -⟩ := hm
    decide
  exact ⟨⟨by decide, by decide, hoccA, hne⟩,
    sink_exclusivity worldA 3 steadyA (4, 0) 0 2 (by decide) (by decide)
      hoccA hne⟩

theorem mem_targetsOf (edges : List (Coord × Edge)) (s : Coord) (e : Edge)
    (h : alook edges s = some e) : e.tgt ∈ targetsOf edges := by
  rw [targetsOf, List.mem_dedup]
  exact List.mem_map.mpr ⟨(s, e), mem_of_alook h, rfl⟩

theorem filter_sub_length_le (tl : List Coord) (v : List Coord) (t : Coord) :
    (tl.filter (fun x => decide (x ∉ v ++ [t]))).length ≤
      (tl.filter (fun x => decide (x ∉ v))).length := by
  apply List.Sublist.length_le
  apply List.monotone_filter_right
  intro x hx
  simp only [decide_eq_true_eq, List.mem_append] at hx ⊢
  exact fun hc => hx (Or.inl hc)

theorem filter_not_mem_append_lt (TS : List Coord) (v : List Coord) (t : Coord)
    (ht : t ∈ TS) (htv : t ∉ v) :
    (TS.filter (fun x => decide (x ∉ v ++ [t]))).length <
      (TS.filter (fun x => decide (x ∉ v))).length := by
  induction TS with
  | nil => simp at ht
  | cons a tl ih =>
      simp only [List.filter_cons]
      by_cases h1 : a ∉ v ++ [t]
      · have h2 : a ∉ v := fun hc => h1 (List.mem_append_left _ hc)
        rw [if_pos (decide_eq_true h1), if_pos (decide_eq_true h2)]
        simp only [List.length_cons]
        have hat : a ≠ t := fun hc =>
          h1 (List.mem_append_right _ (by rw [hc]; exact List.mem_singleton_self t))
        have ht' : t ∈ tl := by
          rcases List.mem_cons.mp ht with rfl | h
          · exact absurd rfl hat.symm
          · exact h
        exact Nat.succ_lt_succ (ih ht')
      · rw [if_neg (by simpa using h1)]
        by_cases h2 : a ∉ v
        · rw [if_pos (decide_eq_true h2)]
          simp only [List.length_cons]
          have := filter_sub_length_le tl v t
          omega
        · rw [if_neg (by simpa using h2)]
          have ht' : t ∈ tl := by
            rcases List.mem_cons.mp ht with rfl | h
            · exact absurd (not_not.mp h2) htv
            · exact h
          exact ih ht'

/-- Any `move_succeeds` walk keeps the memo entries of a closed
self-sustaining set truthful (never records `false` inside it), and returns
`true` when started inside the set. A closed set: every member has an edge
into another member of the set that is occupied, not a sink, and distinct. -/
theorem walk_closed_set (sinks : List Coord) (edges : List (Coord × Edge))
    (occupied : List Coord) (ps : List Coord)
    (hps : ∀ p ∈ ps, ∃ e : Edge, alook edges p = some e ∧ e.tgt ∈ ps ∧
      e.tgt ≠ p ∧ e.tgt ∉ sinks)
    (hocc : ∀ p ∈ ps, p ∈ occupied) :
    ∀ (fuel : Nat) (src : Coord) (memo : List (Coord × Bool))
      (visiting : List Coord),
      ((targetsOf edges).filter (fun t => decide (t ∉ visiting))).length < fuel →
      (∀ p ∈ ps, alook memo p = none ∨ alook memo p = some true) →
      (∀ p ∈ ps,
        alook (move_succeeds sinks edges occupied fuel src memo visiting).2 p
            = none ∨
        alook (move_succeeds sinks edges occupied fuel src memo visiting).2 p
            = some true) ∧
      (src ∈ ps →
        (move_succeeds sinks edges occupied fuel src memo visiting).1 = true) := by
  intro fuel
  induction fuel with
  | zero => intro src memo visiting hf; omega
  | succ f ih =>
      intro src memo visiting hf hmemo
      rcases hm : alook memo src with _ | b
      · rcases he : alook edges src with _ | e
        · simp only [move_succeeds, hm, he]
          constructor
          · intro p hp
            by_cases hpsrc : p = src
            · subst hpsrc
              obtain ⟨e', he', -⟩ := hps p hp
              rw [he] at he'
              exact absurd he' (by simp)
            · rw [alook_aset_ne _ _ _ _ hpsrc]
              exact hmemo p hp
          · intro hsrc
            obtain ⟨e', he', -⟩ := hps src hsrc
            rw [he] at he'
            exact absurd he' (by simp)
        · simp only [move_succeeds, hm, he]
          by_cases h1 : e.tgt ∈ sinks
          · rw [if_pos h1]
            refine ⟨?_, fun _ => rfl⟩
            intro p hp
            by_cases hpsrc : p = src
            · subst hpsrc; right; exact alook_aset_self _ _ _
            · rw [alook_aset_ne _ _ _ _ hpsrc]; exact hmemo p hp
          · rw [if_neg h1]
            by_cases h2 : e.tgt ∈ occupied
            · rw [if_neg (by simpa using h2)]
              by_cases h3 : e.tgt = src
              · rw [if_pos h3]
                refine ⟨?_, fun _ => rfl⟩
                intro p hp
                by_cases hpsrc : p = src
                · subst hpsrc; right; exact alook_aset_self _ _ _
                · rw [alook_aset_ne _ _ _ _ hpsrc]; exact hmemo p hp
              · rw [if_neg h3]
                by_cases h4 : e.tgt ∈ visiting
                · rw [if_pos h4]
                  refine ⟨?_, fun _ => rfl⟩
                  intro p hp
                  by_cases hpsrc : p = src
                  · subst hpsrc; right; exact alook_aset_self _ _ _
                  · rw [alook_aset_ne _ _ _ _ hpsrc]; exact hmemo p hp
                · rw [if_neg h4]
                  simp only
                  have hrec := ih e.tgt memo (visiting ++ [e.tgt])
                    (by
                      have := filter_not_mem_append_lt (targetsOf edges)
                        visiting e.tgt (mem_targetsOf edges src e he) h4
                      omega)
                    hmemo
                  have hsrcps : src ∈ ps → e.tgt ∈ ps ∧ e.tgt = e.tgt := by
                    intro hsrc
                    obtain ⟨e', he', ht', -⟩ := hps src hsrc
                    rw [he] at he'
                    obtain rfl := Option.some_injective _ he'
                    exact ⟨ht', rfl⟩
                  constructor
                  · intro p hp
                    by_cases hpsrc : p = src
                    · subst hpsrc
                      by_cases hpps : p ∈ ps
                      · right
                        rw [(hrec.2 (hsrcps hpps).1 : _)]
                        exact alook_aset_self _ _ _
                      · exact absurd hp hpps
                    · rw [alook_aset_ne _ _ _ _ hpsrc]
                      exact hrec.1 p hp
                  · intro hsrc
                    exact hrec.2 (hsrcps hsrc).1
            · rw [if_pos (by simpa using h2)]
              refine ⟨?_, ?_⟩
              · intro p hp
                by_cases hpsrc : p = src
                · subst hpsrc; right; exact alook_aset_self _ _ _
                · rw [alook_aset_ne _ _ _ _ hpsrc]; exact hmemo p hp
              · intro _; rfl
      · simp only [move_succeeds, hm]
        refine ⟨hmemo, ?_⟩
        intro hsrc
        rcases hmemo src hsrc with h | h
        · rw [hm] at h; exact Option.noConfusion h
        · rw [hm] at h
          exact Option.some_injective _ h

theorem targetsOf_length_le (edges : List (Coord × Edge)) :
    (targetsOf edges).length ≤ edges.length := by
  have h1 := (List.dedup_sublist (edges.map (fun kv => kv.2.tgt))).length_le
  simpa [targetsOf] using h1

theorem advance_fuel_ok (edges : List (Coord × Edge)) :
    ((targetsOf edges).filter (fun t => decide (t ∉ ([] : List Coord)))).length
      < edges.length + 1 := by
  have h1 : (targetsOf edges).filter (fun t => decide (t ∉ ([] : List Coord)))
      = targetsOf edges := List.filter_eq_self.mpr (by simp)
  rw [h1]
  have := targetsOf_length_le edges
  omega

/-- A successful cell with an edge commits exactly at the edge's target (when
not consumed or decayed), with the edge's direction/owner and the aging rule's
age. -/
theorem cell_commit_success_char (sinks : List Coord)
    (edges : List (Coord × Edge)) (occupied_now : List Coord)
    (inflow_targets : List (Coord × List Nat)) (dsteps fuel : Nat)
    (memo memo' : List (Coord × Bool)) (a q : Coord) (c0 v : WaterCell)
    (e0 : Edge) (he : alook edges a = some e0)
    (hsucc : (move_succeeds sinks edges occupied_now fuel a memo []).1 = true)
    (h : cell_commit sinks edges occupied_now inflow_targets dsteps fuel memo (a, c0)
      = (some (q, v), memo')) :
    q = e0.tgt ∧ e0.tgt ∉ sinks ∧
      v = ⟨e0.ndx, e0.ndy,
        (if e0.tgt ≠ a then 0
          else if e0.eid ∈ inflowIds inflow_targets e0.tgt then 0 else c0.age + 1),
        e0.eid, e0.pref⟩ := by
  simp only [cell_commit, he, hsucc] at h
  split_ifs at h <;>
    first
      | (simp only [Prod.mk.injEq, Option.some.injEq] at h
         obtain ⟨⟨rfl, rfl⟩, -⟩ := h
         refine ⟨rfl, by assumption, ?_⟩
         simp_all)
      | simp at h

/-- A cell with no edge or a failed move commits, if at all, at its own
position with its own direction and owner. -/
theorem cell_commit_fail_char (sinks : List Coord)
    (edges : List (Coord × Edge)) (occupied_now : List Coord)
    (inflow_targets : List (Coord × List Nat)) (dsteps fuel : Nat)
    (memo memo' : List (Coord × Bool)) (a q : Coord) (c0 v : WaterCell)
    (hfail : alook edges a = none ∨
      (move_succeeds sinks edges occupied_now fuel a memo []).1 = false)
    (h : cell_commit sinks edges occupied_now inflow_targets dsteps fuel memo (a, c0)
      = (some (q, v), memo')) :
    q = a ∧ v = ⟨c0.dx, c0.dy,
      (if c0.emitter_id ∈ inflowIds inflow_targets a then 0 else c0.age + 1),
      c0.emitter_id, c0.prefer_left⟩ := by
  rcases hfail with he | hs
  · simp only [cell_commit, he] at h
    split_ifs at h <;>
      first
        | (simp only [Prod.mk.injEq, Option.some.injEq] at h
           obtain ⟨⟨rfl, rfl⟩, -⟩ := h
           exact ⟨rfl, by simp_all⟩)
        | simp at h
  · rcases he : alook edges a with _ | e0 <;> simp only [cell_commit, he, hs] at h
    · split_ifs at h <;>
        first
          | (simp only [Prod.mk.injEq, Option.some.injEq] at h
             obtain ⟨⟨rfl, rfl⟩, -⟩ := h
             exact ⟨rfl, by simp_all⟩)
          | simp at h
    · rw [if_neg (by simp [hs])] at h
      split_ifs at h <;>
        first
          | (simp only [Prod.mk.injEq, Option.some.injEq] at h
             obtain ⟨⟨rfl, rfl⟩, -⟩ := h
             exact ⟨rfl, by simp_all⟩)
          | simp at h

/-- The memo side of `cell_commit` preserves the closed-set invariant. -/
theorem cell_commit_loop_memo (sinks : List Coord)
    (edges : List (Coord × Edge)) (occupied : List Coord)
    (inflow_targets : List (Coord × List Nat)) (dsteps : Nat)
    (ps : List Coord)
    (hps : ∀ p ∈ ps, ∃ e : Edge, alook edges p = some e ∧ e.tgt ∈ ps ∧
      e.tgt ≠ p ∧ e.tgt ∉ sinks)
    (hocc : ∀ p ∈ ps, p ∈ occupied)
    (memo : List (Coord × Bool)) (pc : Coord × WaterCell)
    (hmemo : ∀ p ∈ ps, alook memo p = none ∨ alook memo p = some true) :
    ∀ p ∈ ps,
      alook (cell_commit sinks edges occupied inflow_targets dsteps
        (edges.length + 1) memo pc).2 p = none ∨
      alook (cell_commit sinks edges occupied inflow_targets dsteps
        (edges.length + 1) memo pc).2 p = some true := by
  have hwalk := walk_closed_set sinks edges occupied ps hps hocc
    (edges.length + 1) pc.1 memo [] (advance_fuel_ok edges) hmemo
  rcases he : alook edges pc.1 with _ | e
  · simp only [cell_commit, he]
    split_ifs <;> exact hmemo
  · obtain ⟨a0, c0⟩ := pc
    simp only [cell_commit, he]
    simp only at hwalk
    split_ifs <;> simp only <;> exact hwalk.1

theorem advance_step_snd (sinks : List Coord) (edges : List (Coord × Edge))
    (occupied : List Coord) (inflow : List (Coord × List Nat))
    (dsteps fuel : Nat) (acc : List (Coord × WaterCell) × List (Coord × Bool))
    (pc : Coord × WaterCell) :
    (advance_step sinks edges occupied inflow dsteps fuel acc pc).2
      = (cell_commit sinks edges occupied inflow dsteps fuel acc.2 pc).2 := by
  rcases hc : (cell_commit sinks edges occupied inflow dsteps fuel acc.2 pc).1
    with _ | qv <;> simp only [advance_step, hc]

theorem advance_step_fst_none (sinks : List Coord) (edges : List (Coord × Edge))
    (occupied : List Coord) (inflow : List (Coord × List Nat))
    (dsteps fuel : Nat) (acc : List (Coord × WaterCell) × List (Coord × Bool))
    (pc : Coord × WaterCell)
    (hc : (cell_commit sinks edges occupied inflow dsteps fuel acc.2 pc).1 = none) :
    (advance_step sinks edges occupied inflow dsteps fuel acc pc).1 = acc.1 := by
  simp only [advance_step, hc]

theorem advance_step_fst_some (sinks : List Coord) (edges : List (Coord × Edge))
    (occupied : List Coord) (inflow : List (Coord × List Nat))
    (dsteps fuel : Nat) (acc : List (Coord × WaterCell) × List (Coord × Bool))
    (pc : Coord × WaterCell) (qv : Coord × WaterCell)
    (hc : (cell_commit sinks edges occupied inflow dsteps fuel acc.2 pc).1 = some qv) :
    (advance_step sinks edges occupied inflow dsteps fuel acc pc).1
      = aset acc.1 qv.1 qv.2 := by
  simp only [advance_step, hc]

/-- C7: cells arranged in a closed dependency loop — each cell's selected edge
targets another loop cell's (occupied, non-sink) position — all move in the
same tick: each one's move succeeds and the pre-prune next map holds the
advanced cell (age 0) at its target. -/
theorem cycle_rotation (sinks : List Coord) (water : List (Coord × WaterCell))
    (edges : List (Coord × Edge)) (inflow : List (Coord × List Nat))
    (dsteps : Nat) (ps : List Coord)
    (hinj : ∀ s1 e1 s2 e2, alook edges s1 = some e1 → alook edges s2 = some e2 →
      e1.tgt = e2.tgt → s1 = s2)
    (hps : ∀ q ∈ ps, ∃ e : Edge, alook edges q = some e ∧ e.tgt ∈ ps ∧
      e.tgt ≠ q ∧ e.tgt ∉ sinks)
    (hocc : ∀ q ∈ ps, q ∈ akeys water)
    (hd : 0 < dsteps)
    (p : Coord) (hp : p ∈ ps) (c : WaterCell) (hpc : (p, c) ∈ water)
    (e : Edge) (he : alook edges p = some e) :
    (move_succeeds sinks edges (akeys water) (edges.length + 1) p [] []).1 = true ∧
    alook (advance_water sinks water edges inflow dsteps) e.tgt
      = some ⟨e.ndx, e.ndy, 0, e.eid, e.pref⟩ := by
  have hwalkP := walk_closed_set sinks edges (akeys water) ps hps hocc
  obtain ⟨e', he', htps0, htne0, htns0⟩ := hps p hp
  rw [he] at he'
  obtain rfl := Option.some_injective _ he'
  refine ⟨(hwalkP (edges.length + 1) p [] [] (advance_fuel_ok edges)
    (by simp [alook])).2 hp, ?_⟩
  obtain ⟨w1, w2, hsplit⟩ := List.append_of_mem hpc
  show alook (List.foldl (advance_step sinks edges (akeys water) inflow dsteps
    (edges.length + 1)) ([], []) water).1 e.tgt = _
  nth_rewrite 2 [hsplit]
  rw [List.foldl_append, List.foldl_cons]
  have hmemo1 : ∀ q ∈ ps,
      alook (List.foldl (advance_step sinks edges (akeys water) inflow dsteps
        (edges.length + 1)) ([], []) w1).2 q = none ∨
      alook (List.foldl (advance_step sinks edges (akeys water) inflow dsteps
        (edges.length + 1)) ([], []) w1).2 q = some true := by
    refine foldl_invariant
      (advance_step sinks edges (akeys water) inflow dsteps (edges.length + 1))
      (fun acc => ∀ q ∈ ps,
        alook acc.2 q = none ∨ alook acc.2 q = some true) w1 ([], [])
      (fun q _ => Or.inl rfl) ?_
    intro acc pc' _ hP
    rw [advance_step_snd]
    exact cell_commit_loop_memo sinks edges (akeys water) inflow dsteps ps hps
      hocc acc.2 pc' hP
  set acc1 := List.foldl (advance_step sinks edges (akeys water) inflow dsteps
    (edges.length + 1)) ([], []) w1 with hacc1
  have hsucc1 : (move_succeeds sinks edges (akeys water) (edges.length + 1) p
      acc1.2 []).1 = true :=
    (hwalkP (edges.length + 1) p acc1.2 [] (advance_fuel_ok edges) hmemo1).2 hp
  have hcc : cell_commit sinks edges (akeys water) inflow dsteps
      (edges.length + 1) acc1.2 (p, c)
      = (some (e.tgt, ⟨e.ndx, e.ndy, 0, e.eid, e.pref⟩),
        (move_succeeds sinks edges (akeys water) (edges.length + 1) p acc1.2 []).2) := by
    simp only [cell_commit, he]
    rw [if_pos hsucc1, if_neg htns0]
    simp only [if_pos htne0]
    rw [if_pos hd]
  have hstep : (advance_step sinks edges (akeys water) inflow dsteps
      (edges.length + 1) acc1 (p, c)).1
      = aset acc1.1 e.tgt ⟨e.ndx, e.ndy, 0, e.eid, e.pref⟩ :=
    advance_step_fst_some _ _ _ _ _ _ _ _ _ (by rw [hcc])
  have hQ : ∀ acc2 : List (Coord × WaterCell) × List (Coord × Bool),
      ((∀ q ∈ ps, alook acc2.2 q = none ∨ alook acc2.2 q = some true) ∧
        alook acc2.1 e.tgt = some ⟨e.ndx, e.ndy, 0, e.eid, e.pref⟩) →
      (∀ q ∈ ps, alook (List.foldl (advance_step sinks edges (akeys water)
          inflow dsteps (edges.length + 1)) acc2 w2).2 q = none ∨
        alook (List.foldl (advance_step sinks edges (akeys water)
          inflow dsteps (edges.length + 1)) acc2 w2).2 q = some true) ∧
      alook (List.foldl (advance_step sinks edges (akeys water) inflow dsteps
        (edges.length + 1)) acc2 w2).1 e.tgt
        = some ⟨e.ndx, e.ndy, 0, e.eid, e.pref⟩ := by
    intro acc2 hinit
    refine foldl_invariant
      (advance_step sinks edges (akeys water) inflow dsteps (edges.length + 1))
      (fun acc => (∀ q ∈ ps, alook acc.2 q = none ∨
        alook acc.2 q = some true) ∧
        alook acc.1 e.tgt = some ⟨e.ndx, e.ndy, 0, e.eid, e.pref⟩) w2 acc2 hinit ?_
    intro acc pc' _ hP
    obtain ⟨a', c'⟩ := pc'
    refine ⟨by
      rw [advance_step_snd]
      exact cell_commit_loop_memo sinks edges (akeys water) inflow dsteps ps hps
        hocc acc.2 (a', c') hP.1, ?_⟩
    rcases hc : (cell_commit sinks edges (akeys water) inflow dsteps
        (edges.length + 1) acc.2 (a', c')).1 with _ | qv
    · rw [advance_step_fst_none _ _ _ _ _ _ _ _ hc]
      exact hP.2
    · rw [advance_step_fst_some _ _ _ _ _ _ _ _ _ hc]
      obtain ⟨q1, v1⟩ := qv
      by_cases hq1 : q1 = e.tgt
      · have hfull : cell_commit sinks edges (akeys water) inflow dsteps
            (edges.length + 1) acc.2 (a', c')
            = (some (q1, v1), (cell_commit sinks edges (akeys water) inflow
              dsteps (edges.length + 1) acc.2 (a', c')).2) := by rw [← hc]
        have hq1ps : q1 ∈ ps := by rw [hq1]; exact htps0
        rcases hea' : alook edges a' with _ | ea'
        · obtain ⟨hqa, -⟩ := cell_commit_fail_char sinks edges (akeys water)
            inflow dsteps (edges.length + 1) acc.2 _ a' q1 c' v1 (Or.inl hea') hfull
          obtain ⟨e2, he2, -⟩ := hps q1 hq1ps
          rw [hqa, hea'] at he2
          exact absurd he2 (by simp)
        · by_cases hsucc' : (move_succeeds sinks edges (akeys water)
              (edges.length + 1) a' acc.2 []).1 = true
          · obtain ⟨htq, -, hv⟩ := cell_commit_success_char sinks edges
              (akeys water) inflow dsteps (edges.length + 1) acc.2 _ a' q1 c' v1
              ea' hea' hsucc' hfull
            have hap : a' = p := hinj a' ea' p e hea' he (by rw [← htq, hq1])
            subst hap
            obtain rfl : ea' = e := by
              rw [he] at hea'
              exact (Option.some_injective _ hea').symm
            rw [hq1, hv]
            rw [if_pos htne0]
            exact alook_aset_self _ _ _
          · obtain ⟨hqa, -⟩ := cell_commit_fail_char sinks edges (akeys water)
              inflow dsteps (edges.length + 1) acc.2 _ a' q1 c' v1
              (Or.inr (by rwa [Bool.not_eq_true] at hsucc')) hfull
            rw [hqa] at hq1ps
            exact absurd ((hwalkP (edges.length + 1) a' acc.2 []
              (advance_fuel_ok edges) hP.1).2 hq1ps) hsucc'
      · rw [alook_aset_ne _ _ _ _ (fun hcon => hq1 hcon.symm)]
        exact hP.2
  exact (hQ (advance_step sinks edges (akeys water) inflow dsteps
    (edges.length + 1) acc1 (p, c))
    ⟨by
      rw [advance_step_snd]
      exact cell_commit_loop_memo sinks edges (akeys water) inflow dsteps ps hps
        hocc acc1.2 (p, c) hmemo1, by
      rw [hstep]
      exact alook_aset_self _ _ _⟩).2

/-- Distinct edge targets make edge sources unique per target. -/
theorem alook_target_inj_of_nodup (edges : List (Coord × Edge))
    (hnd : (edges.map (fun kv => kv.2.tgt)).Nodup) :
    ∀ s1 e1 s2 e2, alook edges s1 = some e1 → alook edges s2 = some e2 →
      e1.tgt = e2.tgt → s1 = s2 := by
  intro s1 e1 s2 e2 h1 h2 ht
  have hm1 := mem_of_alook h1
  have hm2 := mem_of_alook h2
  have := List.inj_on_of_nodup_map hnd hm1 hm2 ht
  exact congrArg Prod.fst this

/-- C7 witness: in the concrete 2×2 rotation, the cell at `(0,0)` (and by the
same theorem each other loop cell) succeeds and lands on its target with age
0 in the pre-prune next map. -/
theorem cycle_rotation_witness :
    (((0, 0) : Coord) ∈ psCyc ∧
      (((0, 0) : Coord), (⟨1, 0, 0, 0, true⟩ : WaterCell)) ∈ waterCyc ∧
      alook edgesCyc (0, 0) = some ⟨(1, 0), 1, 0, 0, true⟩ ∧
      (∀ q ∈ psCyc, q ∈ akeys waterCyc) ∧ (0 : Nat) < 3) ∧
    ((move_succeeds [] edgesCyc (akeys waterCyc) (edgesCyc.length + 1)
        (0, 0) [] []).1 = true ∧
      alook (advance_water [] waterCyc edgesCyc [] 3) (1, 0)
        = some ⟨1, 0, 0, 0, true⟩) := by
  refine ⟨⟨by decide, by decide, by decide, by decide, by decide⟩, ?_⟩
  have h := cycle_rotation [] waterCyc edgesCyc [] 3 psCyc
    (alook_target_inj_of_nodup edgesCyc (by decide))
    (by
      intro q hq
      simp only [psCyc, List.mem_cons, List.mem_singleton, List.not_mem_nil,
        or_false] at hq
      rcases hq with rfl | rfl | rfl | rfl
      · exact ⟨⟨(1, 0), 1, 0, 0, true⟩, by decide, by decide, by decide, by decide⟩
      · exact ⟨⟨(1, 1), 0, 1, 0, true⟩, by decide, by decide, by decide, by decide⟩
      · exact ⟨⟨(0, 1), -1, 0, 0, true⟩, by decide, by decide, by decide, by decide⟩
      · exact ⟨⟨(0, 0), 0, -1, 0, true⟩, by decide, by decide, by decide, by decide⟩)
    (by decide) (by decide) (0, 0) (by decide) ⟨1, 0, 0, 0, true⟩ (by decide)
    ⟨(1, 0), 1, 0, 0, true⟩ (by decide)
  exact h

theorem connected_mem {positions : List Coord} {a b : Coord}
    (h : Connected positions a b) : b ∈ positions := by
  induction h with
  | refl hp => exact hp
  | tail q r hpq hn hr ih => exact hr

theorem connected_trans {positions : List Coord} {a b c : Coord}
    (h1 : Connected positions a b) (h2 : Connected positions b c) :
    Connected positions a c := by
  induction h2 with
  | refl hp => exact h1
  | tail q r hpq hn hr ih => exact Connected.tail _ _ _ ih hn hr

theorem connected_step {positions : List Coord} {a b : Coord}
    (ha : a ∈ positions) (hn : b ∈ nbrs a) (hb : b ∈ positions) :
    Connected positions a b :=
  Connected.tail a a b (Connected.refl a ha) hn hb

/-- Worklist invariants of the flood fill: with enough fuel and a frontier
invariant (every processed node's in-bounds neighbours are processed or
queued), the result contains `seen` and `stack`, is closed under same-set
neighbour steps, and contains only `seen` plus nodes connected from `stack`. -/
theorem flood_master (positions : List Coord) :
    ∀ (fuel : Nat) (stack seen : List Coord),
    (∀ x ∈ stack, x ∈ positions) →
    stack.length + 5 * (positions.filter (fun p => decide (p ∉ seen))).length < fuel →
    (∀ q ∈ seen, ∀ r, r ∈ nbrs q → r ∈ positions → r ∈ seen ∨ r ∈ stack) →
    (∀ x ∈ seen, x ∈ flood positions fuel stack seen) ∧
    (∀ x ∈ stack, x ∈ flood positions fuel stack seen) ∧
    (∀ q ∈ flood positions fuel stack seen, ∀ r, r ∈ nbrs q → r ∈ positions →
      r ∈ flood positions fuel stack seen) ∧
    (∀ q ∈ flood positions fuel stack seen,
      q ∈ seen ∨ ∃ s ∈ stack, Connected positions s q) := by
  intro fuel
  induction fuel with
  | zero =>
      intro stack seen _ hfuel _
      omega
  | succ fuel ih =>
      intro stack seen hss hfuel hcl
      match stack, hss, hfuel, hcl with
      | [], hss, hfuel, hcl =>
          rw [flood]
          refine ⟨fun x hx => hx, fun x hx => absurd hx (List.not_mem_nil x),
            ?_, fun q hq => Or.inl hq⟩
          intro q hq r hn hr
          rcases hcl q hq r hn hr with h | h
          · exact h
          · exact absurd h (List.not_mem_nil r)
      | pos :: stack', hss, hfuel, hcl =>
          rw [flood]
          by_cases hseen : pos ∈ seen
          · rw [if_pos hseen]
            have hss' : ∀ x ∈ stack', x ∈ positions :=
              fun x hx => hss x (List.mem_cons_of_mem pos hx)
            have hfuel' : stack'.length +
                5 * (positions.filter (fun p => decide (p ∉ seen))).length < fuel := by
              simp only [List.length_cons] at hfuel
              omega
            have hcl' : ∀ q ∈ seen, ∀ r, r ∈ nbrs q → r ∈ positions →
                r ∈ seen ∨ r ∈ stack' := by
              intro q hq r hn hr
              rcases hcl q hq r hn hr with h | h
              · exact Or.inl h
              · rcases List.mem_cons.mp h with rfl | h'
                · exact Or.inl hseen
                · exact Or.inr h'
            obtain ⟨A, B, C, D⟩ := ih stack' seen hss' hfuel' hcl'
            refine ⟨A, ?_, C, ?_⟩
            · intro x hx
              rcases List.mem_cons.mp hx with rfl | hx'
              · exact A x hseen
              · exact B x hx'
            · intro q hq
              rcases D q hq with h | ⟨s, hs, hc⟩
              · exact Or.inl h
              · exact Or.inr ⟨s, List.mem_cons_of_mem pos hs, hc⟩
          · rw [if_neg hseen]
            have hpos : pos ∈ positions := hss pos (List.mem_cons_self pos stack')
            have hss' : ∀ x ∈ ((nbrs pos).filter
                (fun n => decide (n ∈ positions))).reverse ++ stack', x ∈ positions := by
              intro x hx
              rcases List.mem_append.mp hx with h | h
              · exact of_decide_eq_true (List.mem_filter.mp (List.mem_reverse.mp h)).2
              · exact hss x (List.mem_cons_of_mem pos h)
            have hfuel' : (((nbrs pos).filter
                  (fun n => decide (n ∈ positions))).reverse ++ stack').length +
                5 * (positions.filter (fun p => decide (p ∉ seen ++ [pos]))).length <
                fuel := by
              have hlt := filter_not_mem_append_lt positions seen pos hpos hseen
              have hpush : ((nbrs pos).filter
                  (fun n => decide (n ∈ positions))).length ≤ 4 := by
                have := List.length_filter_le
                  (fun n => decide (n ∈ positions)) (nbrs pos)
                simpa [nbrs] using this
              simp only [List.length_append, List.length_reverse,
                List.length_cons] at hfuel ⊢
              omega
            have hcl' : ∀ q ∈ seen ++ [pos], ∀ r, r ∈ nbrs q → r ∈ positions →
                r ∈ seen ++ [pos] ∨ r ∈ ((nbrs pos).filter
                  (fun n => decide (n ∈ positions))).reverse ++ stack' := by
              intro q hq r hn hr
              rcases List.mem_append.mp hq with hq' | hq'
              · rcases hcl q hq' r hn hr with h | h
                · exact Or.inl (List.mem_append_left _ h)
                · rcases List.mem_cons.mp h with rfl | h'
                  · exact Or.inl (List.mem_append_right _ (List.mem_singleton_self r))
                  · exact Or.inr (List.mem_append_right _ h')
              · have hq'' : q = pos := List.mem_singleton.mp hq'
                subst hq''
                refine Or.inr (List.mem_append_left _ ?_)
                exact List.mem_reverse.mpr
                  (List.mem_filter.mpr ⟨hn, decide_eq_true hr⟩)
            obtain ⟨A, B, C, D⟩ := ih _ _ hss' hfuel' hcl'
            refine ⟨?_, ?_, C, ?_⟩
            · intro x hx
              exact A x (List.mem_append_left _ hx)
            · intro x hx
              rcases List.mem_cons.mp hx with rfl | hx'
              · exact A x (List.mem_append_right _ (List.mem_singleton_self x))
              · exact B x (List.mem_append_right _ hx')
            · intro q hq
              rcases D q hq with h | ⟨s, hs, hc⟩
              · rcases List.mem_append.mp h with h' | h'
                · exact Or.inl h'
                · have : q = pos := List.mem_singleton.mp h'
                  subst this
                  exact Or.inr ⟨q, List.mem_cons_self q stack',
                    Connected.refl q hpos⟩
              · rcases List.mem_append.mp hs with h' | h'
                · have hsn := List.mem_filter.mp (List.mem_reverse.mp h')
                  refine Or.inr ⟨pos, List.mem_cons_self pos stack', ?_⟩
                  exact connected_trans
                    (connected_step hpos hsn.1 (of_decide_eq_true hsn.2)) hc
                · exact Or.inr ⟨s, List.mem_cons_of_mem pos h', hc⟩

/-- The running fold inside `reachableFor` computes a lower bound of all the
listed distances that is attained by the initial value or a list element. -/
theorem foldl_min_spec (src : Coord) :
    ∀ (l : List Coord) (init : Nat),
    l.foldl (fun d q => min d (manhattan q src)) init ≤ init ∧
    (∀ q ∈ l, l.foldl (fun d q => min d (manhattan q src)) init ≤
      manhattan q src) ∧
    (l.foldl (fun d q => min d (manhattan q src)) init = init ∨
      ∃ q ∈ l, l.foldl (fun d q => min d (manhattan q src)) init =
        manhattan q src) := by
  intro l
  induction l with
  | nil =>
      intro init
      exact ⟨Nat.le_refl _, fun q hq => absurd hq (List.not_mem_nil q), Or.inl rfl⟩
  | cons a tl ih =>
      intro init
      simp only [List.foldl_cons]
      obtain ⟨h1, h2, h3⟩ := ih (min init (manhattan a src))
      refine ⟨Nat.le_trans h1 (Nat.min_le_left _ _), ?_, ?_⟩
      · intro q hq
        rcases List.mem_cons.mp hq with rfl | hq'
        · exact Nat.le_trans h1 (Nat.min_le_right _ _)
        · exact h2 q hq'
      · rcases h3 with h | ⟨q, hq, h⟩
        · rcases Nat.le_total init (manhattan a src) with hle | hle
          · exact Or.inl (h.trans (Nat.min_eq_left hle))
          · exact Or.inr ⟨a, List.mem_cons_self a tl,
              h.trans (Nat.min_eq_right hle)⟩
        · exact Or.inr ⟨q, List.mem_cons_of_mem a hq, h⟩

/-- `reachableFor` contains exactly the cells of its emitter with a
4-connected same-owner path from a minimum-distance seed. -/
theorem reachableFor_iff (next_water : List (Coord × WaterCell)) (e : Emitter)
    (q : Coord) :
    q ∈ reachableFor next_water e ↔
      ∃ s, isMinSeed next_water e s ∧
        Connected (ownPositions next_water e.id) s q := by
  rcases hP : ownPositions next_water e.id with _ | ⟨p0, rest⟩
  · simp only [reachableFor, hP]
    constructor
    · intro h
      exact absurd h (List.not_mem_nil q)
    · rintro ⟨s, ⟨hs, -⟩, -⟩
      rw [hP] at hs
      exact absurd hs (List.not_mem_nil s)
  · simp only [reachableFor, hP]
    obtain ⟨hm1, hm2, hm3⟩ := foldl_min_spec (e.x, e.y) rest
      (manhattan p0 (e.x, e.y))
    have hlow : ∀ r ∈ p0 :: rest,
        rest.foldl (fun d q => min d (manhattan q (e.x, e.y)))
          (manhattan p0 (e.x, e.y)) ≤ manhattan r (e.x, e.y) := by
      intro r hr
      rcases List.mem_cons.mp hr with rfl | hr'
      · exact hm1
      · exact hm2 r hr'
    have hatt : ∃ r ∈ p0 :: rest,
        rest.foldl (fun d q => min d (manhattan q (e.x, e.y)))
          (manhattan p0 (e.x, e.y)) = manhattan r (e.x, e.y) := by
      rcases hm3 with h | ⟨r, hr, h⟩
      · exact ⟨p0, List.mem_cons_self p0 rest, h⟩
      · exact ⟨r, List.mem_cons_of_mem p0 hr, h⟩
    obtain ⟨A, B, C, D⟩ := flood_master (p0 :: rest)
      (floodFuel (p0 :: rest) ((p0 :: rest).filter
        (fun p => manhattan p (e.x, e.y) =
          rest.foldl (fun d q => min d (manhattan q (e.x, e.y)))
            (manhattan p0 (e.x, e.y)))))
      ((p0 :: rest).filter
        (fun p => manhattan p (e.x, e.y) =
          rest.foldl (fun d q => min d (manhattan q (e.x, e.y)))
            (manhattan p0 (e.x, e.y)))).reverse []
      (fun x hx => (List.mem_filter.mp (List.mem_reverse.mp hx)).1)
      (by
        have hfe : (p0 :: rest).filter
            (fun p => decide (p ∉ ([] : List Coord))) = p0 :: rest := by
          apply List.filter_eq_self.mpr
          intro a _
          simp
        rw [hfe, List.length_reverse, floodFuel]
        omega)
      (fun q hq => absurd hq (List.not_mem_nil q))
    constructor
    · intro hq
      rcases D q hq with h | ⟨s, hs, hc⟩
      · exact absurd h (List.not_mem_nil q)
      · have hsf := List.mem_filter.mp (List.mem_reverse.mp hs)
        refine ⟨s, ⟨?_, ?_⟩, ?_⟩
        · rw [hP]; exact hsf.1
        · intro r hr
          rw [hP] at hr
          have hseq := of_decide_eq_true hsf.2
          calc manhattan s (e.x, e.y) = _ := hseq
            _ ≤ manhattan r (e.x, e.y) := hlow r hr
        · exact hc
    · rintro ⟨s, ⟨hs, hmin⟩, hc⟩
      rw [hP] at hs
      have hseq : manhattan s (e.x, e.y) =
          rest.foldl (fun d q => min d (manhattan q (e.x, e.y)))
            (manhattan p0 (e.x, e.y)) := by
        obtain ⟨r, hr, hratt⟩ := hatt
        have h1 := hmin r (by rw [hP]; exact hr)
        have h2 := hlow s hs
        omega
      have hsseed : s ∈ ((p0 :: rest).filter
          (fun p => manhattan p (e.x, e.y) =
            rest.foldl (fun d q => min d (manhattan q (e.x, e.y)))
              (manhattan p0 (e.x, e.y)))).reverse :=
        List.mem_reverse.mpr (List.mem_filter.mpr ⟨hs, decide_eq_true hseq⟩)
      have hstart := B s hsseed
      clear A B D hsseed hseq hmin hs
      induction hc with
      | refl hp => exact hstart
      | tail q r hpq hn hr ih => exact C q ih r hn hr

/-- Claim C8: `WaterPruner.prune` keeps exactly the cells of the input map
whose emitter is listed and that have a 4-connected path, through cells of
the same emitter, back to one of that emitter's cells at minimum Manhattan
distance from the emitter's source; all other cells are discarded. -/
theorem prune_reachability (next_water : List (Coord × WaterCell))
    (emitters : List Emitter) (p : Coord) (c : WaterCell) :
    (p, c) ∈ prune next_water emitters ↔
      (p, c) ∈ next_water ∧ ∃ e ∈ emitters, e.id = c.emitter_id ∧
        ∃ s, isMinSeed next_water e s ∧
          Connected (ownPositions next_water e.id) s p := by
  rw [prune, List.mem_filter]
  constructor
  · rintro ⟨hw, hany⟩
    obtain ⟨e, he, hcond⟩ := List.any_eq_true.mp hany
    rw [Bool.and_eq_true, decide_eq_true_eq, decide_eq_true_eq] at hcond
    obtain ⟨s, hseed, hconn⟩ := (reachableFor_iff next_water e p).mp hcond.2
    exact ⟨hw, e, he, hcond.1, s, hseed, hconn⟩
  · rintro ⟨hw, e, he, hid, s, hseed, hconn⟩
    refine ⟨hw, List.any_eq_true.mpr ⟨e, he, ?_⟩⟩
    rw [Bool.and_eq_true, decide_eq_true_eq, decide_eq_true_eq]
    exact ⟨hid, (reachableFor_iff next_water e p).mpr ⟨s, hseed, hconn⟩⟩

theorem justT_mono (sinks : List Coord) (edges : List (Coord × Edge))
    (occupied : List Coord) {m m' : List (Coord × Bool)} {v : List Coord}
    {s : Coord}
    (hup : ∀ k, alook m k = some true → alook m' k = some true)
    (h : JustT sinks edges occupied m v s) :
    JustT sinks edges occupied m' v s := by
  obtain ⟨e, he, hcase⟩ := h
  refine ⟨e, he, ?_⟩
  rcases hcase with h | h | h | h | h
  · exact Or.inl h
  · exact Or.inr (Or.inl h)
  · exact Or.inr (Or.inr (Or.inl h))
  · exact Or.inr (Or.inr (Or.inr (Or.inl (hup _ h))))
  · exact Or.inr (Or.inr (Or.inr (Or.inr h)))

theorem justT_visiting_weaken (sinks : List Coord) (edges : List (Coord × Edge))
    (occupied : List Coord) {m : List (Coord × Bool)} {v : List Coord}
    {t s : Coord} (h : JustT sinks edges occupied m v s) :
    JustT sinks edges occupied m (v ++ [t]) s := by
  obtain ⟨e, he, hcase⟩ := h
  refine ⟨e, he, ?_⟩
  rcases hcase with h | h | h | h | h
  · exact Or.inl h
  · exact Or.inr (Or.inl h)
  · exact Or.inr (Or.inr (Or.inl h))
  · exact Or.inr (Or.inr (Or.inr (Or.inl h)))
  · exact Or.inr (Or.inr (Or.inr (Or.inr (List.mem_append_left _ h))))

theorem aset_true_up {κ : Type} [DecidableEq κ] (m : List (κ × Bool)) (s : κ)
    (b : Bool) (hc : b = true ∨ alook m s = none) :
    ∀ k, alook m k = some true → alook (aset m s b) k = some true := by
  intro k hk
  by_cases hks : k = s
  · subst hks
    rcases hc with rfl | hnone
    · rw [alook_aset_self]
    · rw [hnone] at hk
      exact Option.noConfusion hk
  · rw [alook_aset_ne _ _ _ _ hks]
    exact hk

/-- A memo hit returns the stored value and leaves the memo unchanged. -/
theorem ms_memo_hit (sinks : List Coord) (edges : List (Coord × Edge))
    (occupied : List Coord) (fuel : Nat) (src : Coord)
    (memo : List (Coord × Bool)) (visiting : List Coord) (b : Bool)
    (hm : alook memo src = some b) (hf : 1 ≤ fuel) :
    move_succeeds sinks edges occupied fuel src memo visiting = (b, memo) := by
  match fuel, hf with
  | f + 1, _ => simp only [move_succeeds, hm]

/-- Any walk with fuel records its own result for its source. -/
theorem ms_record (sinks : List Coord) (edges : List (Coord × Edge))
    (occupied : List Coord) (fuel : Nat) (src : Coord)
    (memo : List (Coord × Bool)) (visiting : List Coord) (hf : 1 ≤ fuel) :
    alook (move_succeeds sinks edges occupied fuel src memo visiting).2 src
      = some (move_succeeds sinks edges occupied fuel src memo visiting).1 := by
  match fuel, hf with
  | f + 1, _ =>
    rcases hm : alook memo src with _ | b
    · rcases he : alook edges src with _ | e
      · simp only [move_succeeds, hm, he]
        exact alook_aset_self _ _ _
      · simp only [move_succeeds, hm, he]
        split_ifs <;> exact alook_aset_self _ _ _
    · simp only [move_succeeds, hm]

/-- A walk returning `true` records `true` for its source (any fuel). -/
theorem ms_record_true (sinks : List Coord) (edges : List (Coord × Edge))
    (occupied : List Coord) (fuel : Nat) (src : Coord)
    (memo : List (Coord × Bool)) (visiting : List Coord)
    (h : (move_succeeds sinks edges occupied fuel src memo visiting).1 = true) :
    alook (move_succeeds sinks edges occupied fuel src memo visiting).2 src
      = some true := by
  match fuel with
  | 0 => exact absurd h (by simp [move_succeeds])
  | f + 1 =>
      have := ms_record sinks edges occupied (f + 1) src memo visiting
        (Nat.succ_le_succ (Nat.zero_le f))
      rw [h] at this
      exact this

/-- Walks never disturb memo entries present before the call. -/
theorem ms_persist (sinks : List Coord) (edges : List (Coord × Edge))
    (occupied : List Coord) (memo : List (Coord × Bool)) (k : Coord) (b : Bool)
    (hk : alook memo k = some b) :
    ∀ (fuel : Nat) (src : Coord) (visiting : List Coord),
      alook (move_succeeds sinks edges occupied fuel src memo visiting).2 k
        = some b := by
  intro fuel
  induction fuel with
  | zero =>
      intro src visiting
      simp only [move_succeeds]
      exact hk
  | succ f ih =>
      intro src visiting
      rcases hm : alook memo src with _ | b'
      · have hks : k ≠ src := by
          intro hc
          rw [hc, hm] at hk
          exact Option.noConfusion hk
        rcases he : alook edges src with _ | e
        · simp only [move_succeeds, hm, he]
          rw [alook_aset_ne _ _ _ _ hks]
          exact hk
        · simp only [move_succeeds, hm, he]
          split_ifs <;>
            first
              | (rw [alook_aset_ne _ _ _ _ hks]; exact hk)
              | (simp only
                 rw [alook_aset_ne _ _ _ _ hks]
                 exact ih e.tgt (visiting ++ [e.tgt]))
      · simp only [move_succeeds, hm]
        exact hk

/-- A walk returning `false` adds no new `true` memo entries. -/
theorem ms_false_no_new_true (sinks : List Coord) (edges : List (Coord × Edge))
    (occupied : List Coord) :
    ∀ (fuel : Nat) (src : Coord) (memo : List (Coord × Bool))
      (visiting : List Coord),
      (move_succeeds sinks edges occupied fuel src memo visiting).1 = false →
      ∀ k, alook (move_succeeds sinks edges occupied fuel src memo visiting).2 k
          = some true →
        alook memo k = some true := by
  intro fuel
  induction fuel with
  | zero =>
      intro src memo visiting _ k hk
      simpa [move_succeeds] using hk
  | succ f ih =>
      intro src memo visiting hfalse k hk
      rcases hm : alook memo src with _ | b'
      · rcases he : alook edges src with _ | e
        · simp only [move_succeeds, hm, he] at hk
          by_cases hks : k = src
          · subst hks
            rw [alook_aset_self] at hk
            exact absurd (Option.some_injective _ hk) (by simp)
          · rw [alook_aset_ne _ _ _ _ hks] at hk
            exact hk
        · simp only [move_succeeds, hm, he] at hk hfalse
          split_ifs at hk hfalse <;>
            first
              | (simp only at hk hfalse
                 by_cases hks : k = src
                 · subst hks
                   rw [alook_aset_self] at hk
                   rw [Option.some_injective _ hk] at hfalse
                   exact absurd hfalse (by simp)
                 · rw [alook_aset_ne _ _ _ _ hks] at hk
                   exact ih e.tgt memo (visiting ++ [e.tgt]) hfalse k hk)
              | simp at hfalse
      · simp only [move_succeeds, hm] at hk
        exact hk

/-- Memo soundness is preserved by any walk, and a successful walk leaves its
source justified: its edge's target is a sink, unoccupied, the source itself,
recorded successful, or on the current `visiting` chain. -/
theorem ms_sound (sinks : List Coord) (edges : List (Coord × Edge))
    (occupied : List Coord) :
    ∀ (fuel : Nat) (memo : List (Coord × Bool)) (src : Coord)
      (visiting : List Coord),
      MemoSound sinks edges occupied memo visiting →
      MemoSound sinks edges occupied
        (move_succeeds sinks edges occupied fuel src memo visiting).2 visiting ∧
      ((move_succeeds sinks edges occupied fuel src memo visiting).1 = true →
        JustT sinks edges occupied
          (move_succeeds sinks edges occupied fuel src memo visiting).2
          visiting src) := by
  intro fuel
  induction fuel with
  | zero =>
      intro memo src visiting hsound
      simp only [move_succeeds]
      exact ⟨hsound, fun h => absurd h (by simp)⟩
  | succ f ih =>
      intro memo src visiting hsound
      rcases hm : alook memo src with _ | b
      · rcases he : alook edges src with _ | e
        · simp only [move_succeeds, hm, he]
          refine ⟨?_, fun h => absurd h (by simp)⟩
          intro s hs
          by_cases hss : s = src
          · subst hss
            rw [alook_aset_self] at hs
            exact absurd (Option.some_injective _ hs) (by simp)
          · rw [alook_aset_ne _ _ _ _ hss] at hs
            exact justT_mono sinks edges occupied
              (aset_true_up memo src false (Or.inr hm)) (hsound s hs)
        · simp only [move_succeeds, hm, he]
          by_cases h1 : e.tgt ∈ sinks
          · rw [if_pos h1]
            have hJ : JustT sinks edges occupied (aset memo src true) visiting
                src := ⟨e, he, Or.inl h1⟩
            refine ⟨?_, fun _ => hJ⟩
            intro s hs
            by_cases hss : s = src
            · subst hss; exact hJ
            · rw [alook_aset_ne _ _ _ _ hss] at hs
              exact justT_mono sinks edges occupied
                (aset_true_up memo src true (Or.inl rfl)) (hsound s hs)
          · rw [if_neg h1]
            by_cases h2 : e.tgt ∈ occupied
            · rw [if_neg (by simpa using h2)]
              by_cases h3 : e.tgt = src
              · rw [if_pos h3]
                have hJ : JustT sinks edges occupied (aset memo src true)
                    visiting src := ⟨e, he, Or.inr (Or.inr (Or.inl h3))⟩
                refine ⟨?_, fun _ => hJ⟩
                intro s hs
                by_cases hss : s = src
                · subst hss; exact hJ
                · rw [alook_aset_ne _ _ _ _ hss] at hs
                  exact justT_mono sinks edges occupied
                    (aset_true_up memo src true (Or.inl rfl)) (hsound s hs)
              · rw [if_neg h3]
                by_cases h4 : e.tgt ∈ visiting
                · rw [if_pos h4]
                  have hJ : JustT sinks edges occupied (aset memo src true)
                      visiting src :=
                    ⟨e, he, Or.inr (Or.inr (Or.inr (Or.inr h4)))⟩
                  refine ⟨?_, fun _ => hJ⟩
                  intro s hs
                  by_cases hss : s = src
                  · subst hss; exact hJ
                  · rw [alook_aset_ne _ _ _ _ hss] at hs
                    exact justT_mono sinks edges occupied
                      (aset_true_up memo src true (Or.inl rfl)) (hsound s hs)
                · rw [if_neg h4]
                  simp only
                  have hchild := ih memo e.tgt (visiting ++ [e.tgt])
                    (fun s hs => justT_visiting_weaken sinks edges occupied
                      (hsound s hs))
                  by_cases hres : (move_succeeds sinks edges occupied f e.tgt
                      memo (visiting ++ [e.tgt])).1 = true
                  · have hrec := ms_record_true sinks edges occupied f e.tgt
                      memo (visiting ++ [e.tgt]) hres
                    have hup : ∀ k,
                        alook (move_succeeds sinks edges occupied f e.tgt memo
                          (visiting ++ [e.tgt])).2 k = some true →
                        alook (aset (move_succeeds sinks edges occupied f e.tgt
                          memo (visiting ++ [e.tgt])).2 src
                          (move_succeeds sinks edges occupied f e.tgt memo
                            (visiting ++ [e.tgt])).1) k = some true := by
                      rw [hres]
                      exact aset_true_up _ _ _ (Or.inl rfl)
                    have hJ : JustT sinks edges occupied
                        (aset (move_succeeds sinks edges occupied f e.tgt memo
                          (visiting ++ [e.tgt])).2 src
                          (move_succeeds sinks edges occupied f e.tgt memo
                            (visiting ++ [e.tgt])).1) visiting src := by
                      refine ⟨e, he, Or.inr (Or.inr (Or.inr (Or.inl ?_)))⟩
                      rw [alook_aset_ne _ _ _ _ h3]
                      exact hrec
                    refine ⟨?_, fun _ => hJ⟩
                    intro s hs
                    by_cases hss : s = src
                    · subst hss; exact hJ
                    · rw [alook_aset_ne _ _ _ _ hss] at hs
                      obtain ⟨e2, he2, hcase⟩ := hchild.1 s hs
                      refine ⟨e2, he2, ?_⟩
                      rcases hcase with h | h | h | h | h
                      · exact Or.inl h
                      · exact Or.inr (Or.inl h)
                      · exact Or.inr (Or.inr (Or.inl h))
                      · exact Or.inr (Or.inr (Or.inr (Or.inl (hup _ h))))
                      · rcases List.mem_append.mp h with h' | h'
                        · exact Or.inr (Or.inr (Or.inr (Or.inr h')))
                        · have h'' : e2.tgt = e.tgt := List.mem_singleton.mp h'
                          refine Or.inr (Or.inr (Or.inr (Or.inl ?_)))
                          rw [h'']
                          exact hup _ hrec
                  · have hres' : (move_succeeds sinks edges occupied f e.tgt
                        memo (visiting ++ [e.tgt])).1 = false := by
                      revert hres
                      cases (move_succeeds sinks edges occupied f e.tgt memo
                        (visiting ++ [e.tgt])).1 <;> simp
                    have hnonew := ms_false_no_new_true sinks edges occupied f
                      e.tgt memo (visiting ++ [e.tgt]) hres'
                    have hup : ∀ k, alook memo k = some true →
                        alook (aset (move_succeeds sinks edges occupied f e.tgt
                          memo (visiting ++ [e.tgt])).2 src
                          (move_succeeds sinks edges occupied f e.tgt memo
                            (visiting ++ [e.tgt])).1) k = some true := by
                      intro k hk
                      have hks : k ≠ src := by
                        intro hc
                        rw [hc, hm] at hk
                        exact Option.noConfusion hk
                      rw [alook_aset_ne _ _ _ _ hks]
                      exact ms_persist sinks edges occupied memo k true hk f
                        e.tgt (visiting ++ [e.tgt])
                    refine ⟨?_, ?_⟩
                    · intro s hs
                      by_cases hss : s = src
                      · subst hss
                        rw [alook_aset_self, hres'] at hs
                        exact absurd (Option.some_injective _ hs) (by simp)
                      · rw [alook_aset_ne _ _ _ _ hss] at hs
                        have hms := hnonew s hs
                        exact justT_mono sinks edges occupied hup (hsound s hms)
                    · intro h
                      rw [hres'] at h
                      exact absurd h (by simp)
            · rw [if_pos (by simpa using h2)]
              have hJ : JustT sinks edges occupied (aset memo src true)
                  visiting src := ⟨e, he, Or.inr (Or.inl h2)⟩
              refine ⟨?_, fun _ => hJ⟩
              intro s hs
              by_cases hss : s = src
              · subst hss; exact hJ
              · rw [alook_aset_ne _ _ _ _ hss] at hs
                exact justT_mono sinks edges occupied
                  (aset_true_up memo src true (Or.inl rfl)) (hsound s hs)
      · simp only [move_succeeds, hm]
        refine ⟨hsound, ?_⟩
        intro h
        rw [h] at hm
        exact hsound src hm

/-- One selection step either leaves the edge map unchanged or stores a
single edge whose target is the processed target coordinate. -/
theorem select_step_fst (world : GridWorld) (water : List (Coord × WaterCell))
    (prev : List (Coord × Nat)) (acc : List (Coord × Edge) × List (Coord × Nat))
    (tm : Coord × List Mover) :
    (select_step world water prev acc tm).1 = acc.1 ∨
      ∃ m : Mover, (select_step world water prev acc tm).1
        = aset acc.1 m.src ⟨tm.1, m.ndx, m.ndy, m.eid, m.pref⟩ := by
  rcases tm with ⟨tgt, ms⟩
  by_cases hs : tgt ∈ world.sinks
  · rcases ms with _ | ⟨m0, rest⟩
    · exact Or.inl (by simp only [select_step, if_pos hs])
    · simp only [select_step, if_pos hs]
      exact Or.inr ⟨_, rfl⟩
  · rcases ms with _ | ⟨m0, rest⟩
    · exact Or.inl (by simp only [select_step, if_neg hs])
    · rcases rest with _ | ⟨m1, rest'⟩
      · simp only [select_step, if_neg hs]
        exact Or.inr ⟨m0, rfl⟩
      · simp only [select_step, if_neg hs]
        exact Or.inr ⟨_, rfl⟩

/-- Folding the selection over targets with distinct keys yields an edge map
with distinct source keys whose edges have pairwise distinct targets (stated
through lookups). -/
theorem select_fold_inj (world : GridWorld) (water : List (Coord × WaterCell))
    (prev : List (Coord × Nat)) :
    ∀ (ts : List (Coord × List Mover))
      (acc : List (Coord × Edge) × List (Coord × Nat)),
      (akeys ts).Nodup →
      (akeys acc.1).Nodup →
      (∀ p e, alook acc.1 p = some e → e.tgt ∉ akeys ts) →
      (∀ p1 p2 e1 e2, alook acc.1 p1 = some e1 → alook acc.1 p2 = some e2 →
        e1.tgt = e2.tgt → p1 = p2) →
      (akeys (ts.foldl (select_step world water prev) acc).1).Nodup ∧
      (∀ p1 p2 e1 e2,
        alook (ts.foldl (select_step world water prev) acc).1 p1 = some e1 →
        alook (ts.foldl (select_step world water prev) acc).1 p2 = some e2 →
        e1.tgt = e2.tgt → p1 = p2) := by
  intro ts
  induction ts with
  | nil =>
      intro acc _ hknd _ hinj
      exact ⟨hknd, hinj⟩
  | cons tm rest ih =>
      intro acc hts hknd hsub hinj
      have hts1 : tm.1 ∉ akeys rest := by
        have := hts
        simp only [akeys, List.map_cons, List.nodup_cons] at this
        exact this.1
      have hts' : (akeys rest).Nodup := by
        have := hts
        simp only [akeys, List.map_cons, List.nodup_cons] at this
        exact this.2
      rw [List.foldl_cons]
      rcases select_step_fst world water prev acc tm with hstep | ⟨m, hstep⟩
      · exact ih _ hts' (by rw [hstep]; exact hknd)
          (by
            rw [hstep]
            intro p e hp
            have := hsub p e hp
            simp only [akeys, List.map_cons, List.mem_cons] at this
            exact fun hc => this (Or.inr hc))
          (by rw [hstep]; exact hinj)
      · refine ih _ hts' ?_ ?_ ?_
        · rw [hstep]
          exact nodup_akeys_aset acc.1 m.src _ hknd
        · rw [hstep]
          intro p e hp
          by_cases hpm : p = m.src
          · subst hpm
            rw [alook_aset_self] at hp
            obtain rfl := Option.some_injective _ hp.symm
            exact hts1
          · rw [alook_aset_ne _ _ _ _ hpm] at hp
            have := hsub p e hp
            simp only [akeys, List.map_cons, List.mem_cons] at this
            exact fun hc => this (Or.inr hc)
        · rw [hstep]
          intro p1 p2 e1 e2 h1 h2 h12
          by_cases hp1 : p1 = m.src <;> by_cases hp2 : p2 = m.src
          · rw [hp1, hp2]
          · subst hp1
            rw [alook_aset_self] at h1
            rw [alook_aset_ne _ _ _ _ hp2] at h2
            obtain rfl := Option.some_injective _ h1.symm
            have := hsub p2 e2 h2
            simp only [akeys, List.map_cons, List.mem_cons] at this
            exact absurd (Or.inl h12.symm) this
          · subst hp2
            rw [alook_aset_self] at h2
            rw [alook_aset_ne _ _ _ _ hp1] at h1
            obtain rfl := Option.some_injective _ h2.symm
            have := hsub p1 e1 h1
            simp only [akeys, List.map_cons, List.mem_cons] at this
            exact absurd (Or.inl h12) this
          · rw [alook_aset_ne _ _ _ _ hp1] at h1
            rw [alook_aset_ne _ _ _ _ hp2] at h2
            exact hinj p1 p2 e1 e2 h1 h2 h12

/-- Storing a fresh key appends the pair at the end. -/
theorem aset_not_mem_eq {κ α : Type} [DecidableEq κ] (l : List (κ × α))
    (k : κ) (v : α) (h : k ∉ akeys l) : aset l k v = l ++ [(k, v)] := by
  induction l with
  | nil => rfl
  | cons hd tl ih =>
      obtain ⟨a, b⟩ := hd
      simp only [akeys, List.map_cons, List.mem_cons] at h
      push_neg at h
      have hak : a ≠ k := Ne.symm h.1
      have htl : k ∉ akeys tl := h.2
      simp only [aset, if_neg hak, List.cons_append, ih htl]

theorem mem_akeys_exists {κ α : Type} {l : List (κ × α)} {p : κ}
    (h : p ∈ akeys l) : ∃ c, (p, c) ∈ l := by
  obtain ⟨x, hx, hx1⟩ := List.mem_map.mp h
  exact ⟨x.2, by rwa [show (p, x.2) = x from Prod.ext hx1.symm rfl]⟩

theorem akeys_mem_of_mem {κ α : Type} {l : List (κ × α)} {p : κ} {c : α}
    (h : (p, c) ∈ l) : p ∈ akeys l :=
  List.mem_map.mpr ⟨(p, c), h, rfl⟩

/-- Extending the advance fold invariant by a processed cell that commits
nothing: the memo may advance (monotonically on existing entries), the next
map is unchanged. -/
theorem adv_inv_extend_none (sinks : List Coord) (edges : List (Coord × Edge))
    (occ : List Coord) (inflow : List (Coord × List Nat)) (dsteps : Nat)
    (done : List (Coord × WaterCell)) (next : List (Coord × WaterCell))
    (memo memo' : List (Coord × Bool)) (a : Coord) (c0 : WaterCell)
    (hinv : AdvInv sinks edges occ inflow dsteps done (next, memo))
    (hup : ∀ q b, alook memo q = some b → alook memo' q = some b)
    (hA' : MemoSound sinks edges occ memo' [])
    (hfate : (∃ e : Edge, alook edges a = some e ∧ alook memo' a = some true ∧
        e.tgt ∈ sinks) ∨ c0.age + 1 ≥ dsteps ∨
      (∃ q d, (q, d) ∈ next ∧
        (q = a ∨ ∃ e : Edge, alook edges a = some e ∧ q = e.tgt)))
    (hEnew : (alook edges a = none ∨ alook memo' a = some false) →
      (if c0.emitter_id ∈ inflowIds inflow a then 0 else c0.age + 1) < dsteps →
      (a, ⟨c0.dx, c0.dy,
        (if c0.emitter_id ∈ inflowIds inflow a then 0 else c0.age + 1),
        c0.emitter_id, c0.prefer_left⟩) ∈ next)
    (hFnew : ∀ e : Edge, alook edges a = some e → ∃ b, alook memo' a = some b) :
    AdvInv sinks edges occ inflow dsteps (done ++ [(a, c0)]) (next, memo') := by
  obtain ⟨hA, hC, hB, hD, hE, hF⟩ := hinv
  refine ⟨hA', hC, ?_, ?_, ?_, ?_⟩
  · intro q hq
    obtain ⟨p, hp, hcase⟩ := hB q hq
    refine ⟨p, by simp only [akeys, List.map_append]; exact List.mem_append_left _ hp, ?_⟩
    rcases hcase with ⟨e2, he2, h1, h2, h3⟩ | ⟨h1, h2⟩
    · exact Or.inl ⟨e2, he2, h1, h2, hup p true h3⟩
    · rcases h2 with h2 | h2
      · exact Or.inr ⟨h1, Or.inl h2⟩
      · exact Or.inr ⟨h1, Or.inr (hup p false h2)⟩
  · intro p c hp
    rcases List.mem_append.mp hp with hp' | hp'
    · rcases hD p c hp' with ⟨e2, he2, hm, hs⟩ | h | ⟨q, d, hqd, hrel⟩
      · exact Or.inl ⟨e2, he2, hup p true hm, hs⟩
      · exact Or.inr (Or.inl h)
      · exact Or.inr (Or.inr ⟨q, d, hqd, hrel⟩)
    · obtain ⟨hpa, hca⟩ := Prod.mk.injEq .. ▸ List.mem_singleton.mp hp'
      subst hpa; subst hca
      exact hfate
  · intro p c hp hyp hlt
    rcases List.mem_append.mp hp with hp' | hp'
    · have hyp0 : alook edges p = none ∨ alook memo p = some false := by
        rcases hyp with h | h
        · exact Or.inl h
        · rcases hmp : alook memo p with _ | b
          · rcases hep : alook edges p with _ | ep
            · exact Or.inl rfl
            · obtain ⟨b', hb'⟩ := hF p (akeys_mem_of_mem hp') ep hep
              rw [hmp] at hb'
              exact Option.noConfusion hb'
          · have hb' := hup p b hmp
            rw [h] at hb'
            have hbf : b = false := (Option.some_injective _ hb').symm
            exact Or.inr (by rw [hbf])
      exact hE p c hp' hyp0 hlt
    · obtain ⟨hpa, hca⟩ := Prod.mk.injEq .. ▸ List.mem_singleton.mp hp'
      subst hpa; subst hca
      exact hEnew hyp hlt
  · intro p hp e hpe
    simp only [akeys, List.map_append, List.map_cons] at hp
    rcases List.mem_append.mp hp with hp' | hp'
    · obtain ⟨b, hb⟩ := hF p hp' e hpe
      exact ⟨b, hup p b hb⟩
    · have hpa : p = a := by simpa using hp'
      subst hpa
      exact hFnew e hpe

/-- Extending the advance fold invariant by a processed cell that commits the
pair `(k, v)`, where `k` is fresh among the committed keys. -/
theorem adv_inv_extend_some (sinks : List Coord) (edges : List (Coord × Edge))
    (occ : List Coord) (inflow : List (Coord × List Nat)) (dsteps : Nat)
    (done : List (Coord × WaterCell)) (next : List (Coord × WaterCell))
    (memo memo' : List (Coord × Bool)) (a : Coord) (c0 : WaterCell)
    (k : Coord) (v : WaterCell)
    (hinv : AdvInv sinks edges occ inflow dsteps done (next, memo))
    (hup : ∀ q b, alook memo q = some b → alook memo' q = some b)
    (hA' : MemoSound sinks edges occ memo' [])
    (hfresh : k ∉ akeys next)
    (horig : (∃ e : Edge, alook edges a = some e ∧ k = e.tgt ∧ e.tgt ∉ sinks ∧
        alook memo' a = some true) ∨
      (k = a ∧ (alook edges a = none ∨ alook memo' a = some false)))
    (hqrel : k = a ∨ ∃ e : Edge, alook edges a = some e ∧ k = e.tgt)
    (hEnew : (alook edges a = none ∨ alook memo' a = some false) →
      (if c0.emitter_id ∈ inflowIds inflow a then 0 else c0.age + 1) < dsteps →
      (a, ⟨c0.dx, c0.dy,
        (if c0.emitter_id ∈ inflowIds inflow a then 0 else c0.age + 1),
        c0.emitter_id, c0.prefer_left⟩) ∈ next ++ [(k, v)])
    (hFnew : ∀ e : Edge, alook edges a = some e → ∃ b, alook memo' a = some b) :
    AdvInv sinks edges occ inflow dsteps (done ++ [(a, c0)])
      (aset next k v, memo') := by
  obtain ⟨hA, hC, hB, hD, hE, hF⟩ := hinv
  rw [aset_not_mem_eq next k v hfresh]
  refine ⟨hA', ?_, ?_, ?_, ?_, ?_⟩
  · simp only [akeys, List.map_append, List.map_cons, List.map_nil]
    exact List.Nodup.append hC (List.nodup_singleton k)
      (by
        rw [List.disjoint_singleton]
        simpa [akeys] using hfresh)
  · intro q hq
    simp only [akeys, List.map_append, List.map_cons, List.map_nil] at hq
    rcases List.mem_append.mp hq with hq' | hq'
    · obtain ⟨p, hp, hcase⟩ := hB q hq'
      refine ⟨p, by
        simp only [akeys, List.map_append]
        exact List.mem_append_left _ hp, ?_⟩
      rcases hcase with ⟨e2, he2, h1, h2, h3⟩ | ⟨h1, h2⟩
      · exact Or.inl ⟨e2, he2, h1, h2, hup p true h3⟩
      · rcases h2 with h2 | h2
        · exact Or.inr ⟨h1, Or.inl h2⟩
        · exact Or.inr ⟨h1, Or.inr (hup p false h2)⟩
    · have hqk : q = k := by simpa using hq'
      subst hqk
      refine ⟨a, by
        simp only [akeys, List.map_append, List.map_cons]
        exact List.mem_append_right _ (by simp), ?_⟩
      exact horig
  · intro p c hp
    rcases List.mem_append.mp hp with hp' | hp'
    · rcases hD p c hp' with ⟨e2, he2, hm, hs⟩ | h | ⟨q, d, hqd, hrel⟩
      · exact Or.inl ⟨e2, he2, hup p true hm, hs⟩
      · exact Or.inr (Or.inl h)
      · exact Or.inr (Or.inr ⟨q, d, List.mem_append_left _ hqd, hrel⟩)
    · obtain ⟨hpa, hca⟩ := Prod.mk.injEq .. ▸ List.mem_singleton.mp hp'
      subst hpa; subst hca
      exact Or.inr (Or.inr ⟨k, v,
        List.mem_append_right _ (List.mem_singleton_self _), hqrel⟩)
  · intro p c hp hyp hlt
    rcases List.mem_append.mp hp with hp' | hp'
    · have hyp0 : alook edges p = none ∨ alook memo p = some false := by
        rcases hyp with h | h
        · exact Or.inl h
        · rcases hmp : alook memo p with _ | b
          · rcases hep : alook edges p with _ | ep
            · exact Or.inl rfl
            · obtain ⟨b', hb'⟩ := hF p (akeys_mem_of_mem hp') ep hep
              rw [hmp] at hb'
              exact Option.noConfusion hb'
          · have hb' := hup p b hmp
            rw [h] at hb'
            have hbf : b = false := (Option.some_injective _ hb').symm
            exact Or.inr (by rw [hbf])
      exact List.mem_append_left _ (hE p c hp' hyp0 hlt)
    · obtain ⟨hpa, hca⟩ := Prod.mk.injEq .. ▸ List.mem_singleton.mp hp'
      subst hpa; subst hca
      exact hEnew hyp hlt
  · intro p hp e hpe
    simp only [akeys, List.map_append, List.map_cons] at hp
    rcases List.mem_append.mp hp with hp' | hp'
    · obtain ⟨b, hb⟩ := hF p hp' e hpe
      exact ⟨b, hup p b hb⟩
    · have hpa : p = a := by simpa using hp'
      subst hpa
      exact hFnew e hpe

/-- One fold step of `advance_water` preserves the invariant, extending the
processed prefix by the current cell. -/
theorem advance_step_inv (sinks : List Coord) (edges : List (Coord × Edge))
    (water : List (Coord × WaterCell)) (inflow : List (Coord × List Nat))
    (dsteps : Nat) (hd : 0 < dsteps)
    (htinj : ∀ p1 p2 e1 e2, alook edges p1 = some e1 →
      alook edges p2 = some e2 → e1.tgt = e2.tgt → p1 = p2)
    (done : List (Coord × WaterCell)) (a : Coord) (c0 : WaterCell)
    (next : List (Coord × WaterCell)) (memo : List (Coord × Bool))
    (ha_w : a ∈ akeys water) (ha_done : a ∉ akeys done)
    (hdone_w : ∀ p ∈ akeys done, p ∈ akeys water)
    (hinv : AdvInv sinks edges (akeys water) inflow dsteps done (next, memo)) :
    AdvInv sinks edges (akeys water) inflow dsteps (done ++ [(a, c0)])
      (advance_step sinks edges (akeys water) inflow dsteps (edges.length + 1)
        (next, memo) (a, c0)) := by
  have hA := hinv.1
  have hB := hinv.2.2.1
  have hfresh_stay : (alook memo a = some true → False) → a ∉ akeys next := by
    intro hnt hqa
    obtain ⟨p, hp, hcase⟩ := hB a hqa
    rcases hcase with ⟨e2, he2, hq, hns, hm⟩ | ⟨hq, -⟩
    · obtain ⟨e2', he2', hcases⟩ := hA p hm
      rw [he2] at he2'
      obtain rfl := Option.some_injective _ he2'
      rcases hcases with h | h | h | h | h
      · exact hns h
      · exact h (by rw [← hq]; exact ha_w)
      · exact ha_done (by rw [hq, h]; exact hp)
      · exact hnt (by rw [hq]; exact h)
      · simp at h
    · exact ha_done (by rw [hq]; exact hp)
  rcases he : alook edges a with _ | e
  · by_cases hna : (if c0.emitter_id ∈ inflowIds inflow a then 0
        else c0.age + 1) < dsteps
    · have hcc : cell_commit sinks edges (akeys water) inflow dsteps
          (edges.length + 1) memo (a, c0)
          = (some (a, ⟨c0.dx, c0.dy,
              (if c0.emitter_id ∈ inflowIds inflow a then 0 else c0.age + 1),
              c0.emitter_id, c0.prefer_left⟩), memo) := by
        simp only [cell_commit, he]
        rw [if_pos hna]
      have hstep : advance_step sinks edges (akeys water) inflow dsteps
          (edges.length + 1) (next, memo) (a, c0)
          = (aset next a ⟨c0.dx, c0.dy,
              (if c0.emitter_id ∈ inflowIds inflow a then 0 else c0.age + 1),
              c0.emitter_id, c0.prefer_left⟩, memo) := by
        simp only [advance_step, hcc]
      rw [hstep]
      refine adv_inv_extend_some sinks edges (akeys water) inflow dsteps done
        next memo memo a c0 _ _ hinv (fun q b h => h) hA ?_ ?_ ?_ ?_ ?_
      · refine hfresh_stay (fun hm => ?_)
        obtain ⟨e', he', -⟩ := hA a hm
        rw [he] at he'
        exact Option.noConfusion he'
      · exact Or.inr ⟨rfl, Or.inl he⟩
      · exact Or.inl rfl
      · intro _ _
        exact List.mem_append_right _ (List.mem_singleton_self _)
      · intro e' he'
        rw [he] at he'
        exact Option.noConfusion he'
    · have hcc : cell_commit sinks edges (akeys water) inflow dsteps
          (edges.length + 1) memo (a, c0) = (none, memo) := by
        simp only [cell_commit, he]
        rw [if_neg hna]
      have hstep : advance_step sinks edges (akeys water) inflow dsteps
          (edges.length + 1) (next, memo) (a, c0) = (next, memo) := by
        simp only [advance_step, hcc]
      rw [hstep]
      have hage : c0.age + 1 ≥ dsteps := by
        by_cases hinf : c0.emitter_id ∈ inflowIds inflow a
        · rw [if_pos hinf] at hna
          omega
        · rw [if_neg hinf] at hna
          omega
      refine adv_inv_extend_none sinks edges (akeys water) inflow dsteps done
        next memo memo a c0 hinv (fun q b h => h) hA ?_ ?_ ?_
      · exact Or.inr (Or.inl hage)
      · intro _ hlt
        exact absurd hlt hna
      · intro e' he'
        rw [he] at he'
        exact Option.noConfusion he'
  · have hf1 : 1 ≤ edges.length + 1 := Nat.succ_le_succ (Nat.zero_le _)
    have hsound := ms_sound sinks edges (akeys water) (edges.length + 1)
      memo a [] hA
    have hrec := ms_record sinks edges (akeys water) (edges.length + 1)
      a memo [] hf1
    have hup : ∀ q b, alook memo q = some b →
        alook (move_succeeds sinks edges (akeys water) (edges.length + 1)
          a memo []).2 q = some b :=
      fun q b h => ms_persist sinks edges (akeys water) memo q b h
        (edges.length + 1) a []
    by_cases hres : (move_succeeds sinks edges (akeys water)
        (edges.length + 1) a memo []).1 = true
    · have hrect : alook (move_succeeds sinks edges (akeys water)
          (edges.length + 1) a memo []).2 a = some true := by
        rw [hres] at hrec
        exact hrec
      obtain ⟨e', he', hcasesJ⟩ := hsound.2 hres
      rw [he] at he'
      obtain rfl := Option.some_injective _ he'
      by_cases hsk : e.tgt ∈ sinks
      · have hcc : cell_commit sinks edges (akeys water) inflow dsteps
            (edges.length + 1) memo (a, c0)
            = (none, (move_succeeds sinks edges (akeys water)
                (edges.length + 1) a memo []).2) := by
          simp only [cell_commit, he]
          rw [if_pos hres, if_pos hsk]
        have hstep : advance_step sinks edges (akeys water) inflow dsteps
            (edges.length + 1) (next, memo) (a, c0)
            = (next, (move_succeeds sinks edges (akeys water)
                (edges.length + 1) a memo []).2) := by
          simp only [advance_step, hcc]
        rw [hstep]
        refine adv_inv_extend_none sinks edges (akeys water) inflow dsteps done
          next memo _ a c0 hinv hup hsound.1 ?_ ?_ ?_
        · exact Or.inl ⟨e, he, hrect, hsk⟩
        · intro hyp _
          rcases hyp with h | h
          · rw [he] at h
            exact Option.noConfusion h
          · rw [hrect] at h
            exact absurd (Option.some_injective _ h) (by simp)
        · intro e2 _
          exact ⟨true, hrect⟩
      · by_cases hna : (if e.tgt ≠ a then 0
            else if e.eid ∈ inflowIds inflow e.tgt then 0 else c0.age + 1)
            < dsteps
        · have hcc : cell_commit sinks edges (akeys water) inflow dsteps
              (edges.length + 1) memo (a, c0)
              = (some (e.tgt, ⟨e.ndx, e.ndy,
                  (if e.tgt ≠ a then 0
                    else if e.eid ∈ inflowIds inflow e.tgt then 0
                    else c0.age + 1), e.eid, e.pref⟩),
                (move_succeeds sinks edges (akeys water) (edges.length + 1)
                  a memo []).2) := by
            simp only [cell_commit, he]
            rw [if_pos hres, if_neg hsk, if_pos hna]
          have hstep : advance_step sinks edges (akeys water) inflow dsteps
              (edges.length + 1) (next, memo) (a, c0)
              = (aset next e.tgt ⟨e.ndx, e.ndy,
                  (if e.tgt ≠ a then 0
                    else if e.eid ∈ inflowIds inflow e.tgt then 0
                    else c0.age + 1), e.eid, e.pref⟩,
                (move_succeeds sinks edges (akeys water) (edges.length + 1)
                  a memo []).2) := by
            simp only [advance_step, hcc]
          rw [hstep]
          have hfresh : e.tgt ∉ akeys next := by
            intro hqa
            obtain ⟨p, hp, hcase⟩ := hB e.tgt hqa
            rcases hcase with ⟨e2, he2, hq, hns, hm⟩ | ⟨hq, hstay⟩
            · have hpa : p = a := htinj p a e2 e he2 he hq.symm
              rw [hpa] at hp
              exact ha_done hp
            · rcases hcasesJ with hX | hX | hX | hX | hX
              · exact hsk hX
              · exact hX (by rw [hq]; exact hdone_w p hp)
              · exact ha_done (by rw [← hX, hq]; exact hp)
              · rcases hstay with hnone | hfalse
                · obtain ⟨e3, he3, -⟩ := hsound.1 e.tgt hX
                  rw [hq, hnone] at he3
                  exact Option.noConfusion he3
                · have hpf := hup p false hfalse
                  rw [hq, hpf] at hX
                  exact absurd (Option.some_injective _ hX) (by simp)
              · simp at hX
          refine adv_inv_extend_some sinks edges (akeys water) inflow dsteps
            done next memo _ a c0 _ _ hinv hup hsound.1 hfresh ?_ ?_ ?_ ?_
          · exact Or.inl ⟨e, he, rfl, hsk, hrect⟩
          · exact Or.inr ⟨e, he, rfl⟩
          · intro hyp _
            rcases hyp with h | h
            · rw [he] at h
              exact Option.noConfusion h
            · rw [hrect] at h
              exact absurd (Option.some_injective _ h) (by simp)
          · intro e2 _
            exact ⟨true, hrect⟩
        · have hcc : cell_commit sinks edges (akeys water) inflow dsteps
              (edges.length + 1) memo (a, c0)
              = (none, (move_succeeds sinks edges (akeys water)
                  (edges.length + 1) a memo []).2) := by
            simp only [cell_commit, he]
            rw [if_pos hres, if_neg hsk, if_neg hna]
          have hstep : advance_step sinks edges (akeys water) inflow dsteps
              (edges.length + 1) (next, memo) (a, c0)
              = (next, (move_succeeds sinks edges (akeys water)
                  (edges.length + 1) a memo []).2) := by
            simp only [advance_step, hcc]
          rw [hstep]
          have hage : c0.age + 1 ≥ dsteps := by
            by_cases hta : e.tgt ≠ a
            · rw [if_pos hta] at hna
              omega
            · rw [if_neg hta] at hna
              by_cases hinf : e.eid ∈ inflowIds inflow e.tgt
              · rw [if_pos hinf] at hna
                omega
              · rw [if_neg hinf] at hna
                omega
          refine adv_inv_extend_none sinks edges (akeys water) inflow dsteps
            done next memo _ a c0 hinv hup hsound.1 ?_ ?_ ?_
          · exact Or.inr (Or.inl hage)
          · intro hyp _
            rcases hyp with h | h
            · rw [he] at h
              exact Option.noConfusion h
            · rw [hrect] at h
              exact absurd (Option.some_injective _ h) (by simp)
          · intro e2 _
            exact ⟨true, hrect⟩
    · have hres' : (move_succeeds sinks edges (akeys water)
          (edges.length + 1) a memo []).1 = false := by
        revert hres
        cases (move_succeeds sinks edges (akeys water) (edges.length + 1)
          a memo []).1 <;> simp
      have hrecf : alook (move_succeeds sinks edges (akeys water)
          (edges.length + 1) a memo []).2 a = some false := by
        rw [hres'] at hrec
        exact hrec
      by_cases hna : (if c0.emitter_id ∈ inflowIds inflow a then 0
          else c0.age + 1) < dsteps
      · have hcc : cell_commit sinks edges (akeys water) inflow dsteps
            (edges.length + 1) memo (a, c0)
            = (some (a, ⟨c0.dx, c0.dy,
                (if c0.emitter_id ∈ inflowIds inflow a then 0 else c0.age + 1),
                c0.emitter_id, c0.prefer_left⟩),
              (move_succeeds sinks edges (akeys water) (edges.length + 1)
                a memo []).2) := by
          simp only [cell_commit, he]
          rw [if_neg (by simp [hres']), if_pos hna]
        have hstep : advance_step sinks edges (akeys water) inflow dsteps
            (edges.length + 1) (next, memo) (a, c0)
            = (aset next a ⟨c0.dx, c0.dy,
                (if c0.emitter_id ∈ inflowIds inflow a then 0 else c0.age + 1),
                c0.emitter_id, c0.prefer_left⟩,
              (move_succeeds sinks edges (akeys water) (edges.length + 1)
                a memo []).2) := by
          simp only [advance_step, hcc]
        rw [hstep]
        have hfresh : a ∉ akeys next := by
          refine hfresh_stay (fun hm => ?_)
          have h2 := ms_memo_hit sinks edges (akeys water) (edges.length + 1)
            a memo [] true hm hf1
          rw [h2] at hres'
          simp at hres'
        refine adv_inv_extend_some sinks edges (akeys water) inflow dsteps
          done next memo _ a c0 _ _ hinv hup hsound.1 hfresh ?_ ?_ ?_ ?_
        · exact Or.inr ⟨rfl, Or.inr hrecf⟩
        · exact Or.inl rfl
        · intro _ _
          exact List.mem_append_right _ (List.mem_singleton_self _)
        · intro e2 _
          exact ⟨false, hrecf⟩
      · have hcc : cell_commit sinks edges (akeys water) inflow dsteps
            (edges.length + 1) memo (a, c0)
            = (none, (move_succeeds sinks edges (akeys water)
                (edges.length + 1) a memo []).2) := by
          simp only [cell_commit, he]
          rw [if_neg (by simp [hres']), if_neg hna]
        have hstep : advance_step sinks edges (akeys water) inflow dsteps
            (edges.length + 1) (next, memo) (a, c0)
            = (next, (move_succeeds sinks edges (akeys water)
                (edges.length + 1) a memo []).2) := by
          simp only [advance_step, hcc]
        rw [hstep]
        have hage : c0.age + 1 ≥ dsteps := by
          by_cases hinf : c0.emitter_id ∈ inflowIds inflow a
          · rw [if_pos hinf] at hna
            omega
          · rw [if_neg hinf] at hna
            omega
        refine adv_inv_extend_none sinks edges (akeys water) inflow dsteps
          done next memo _ a c0 hinv hup hsound.1 ?_ ?_ ?_
        · exact Or.inr (Or.inl hage)
        · intro _ hlt
          exact absurd hlt hna
        · intro e2 _
          exact ⟨false, hrecf⟩

/-- The advance fold maintains the invariant over any suffix of the water
map. -/
theorem advance_fold_inv (sinks : List Coord) (edges : List (Coord × Edge))
    (water : List (Coord × WaterCell)) (inflow : List (Coord × List Nat))
    (dsteps : Nat) (hd : 0 < dsteps)
    (htinj : ∀ p1 p2 e1 e2, alook edges p1 = some e1 →
      alook edges p2 = some e2 → e1.tgt = e2.tgt → p1 = p2) :
    ∀ (ws done : List (Coord × WaterCell))
      (acc : List (Coord × WaterCell) × List (Coord × Bool)),
      (akeys (done ++ ws)).Nodup →
      (∀ x ∈ done ++ ws, x ∈ water) →
      AdvInv sinks edges (akeys water) inflow dsteps done acc →
      AdvInv sinks edges (akeys water) inflow dsteps (done ++ ws)
        (ws.foldl (advance_step sinks edges (akeys water) inflow dsteps
          (edges.length + 1)) acc) := by
  intro ws
  induction ws with
  | nil =>
      intro done acc _ _ hinv
      simpa using hinv
  | cons pc rest ih =>
      intro done acc hnd hsub hinv
      obtain ⟨a, c0⟩ := pc
      obtain ⟨next, memo⟩ := acc
      rw [List.foldl_cons]
      have ha_w : a ∈ akeys water :=
        akeys_mem_of_mem (hsub (a, c0) (by simp))
      have ha_done : a ∉ akeys done := by
        simp only [akeys, List.map_append, List.map_cons] at hnd
        have hdisj := (List.nodup_append.mp hnd).2.2
        intro hc
        exact hdisj hc (by simp)
      have hdone_w : ∀ p ∈ akeys done, p ∈ akeys water := by
        intro p hp
        obtain ⟨cp, hcp⟩ := mem_akeys_exists hp
        exact akeys_mem_of_mem (hsub (p, cp) (List.mem_append_left _ hcp))
      have hstep := advance_step_inv sinks edges water inflow dsteps hd htinj
        done a c0 next memo ha_w ha_done hdone_w hinv
      have hnd' : (akeys ((done ++ [(a, c0)]) ++ rest)).Nodup := by
        simpa [List.append_assoc] using hnd
      have hsub' : ∀ x ∈ (done ++ [(a, c0)]) ++ rest, x ∈ water := by
        intro x hx
        apply hsub
        simpa [List.append_assoc] using hx
      have := ih (done ++ [(a, c0)]) _ hnd' hsub' hstep
      simpa [List.append_assoc] using this

/-- The complete advance fold over the water map satisfies the invariant. -/
theorem advance_water_inv (sinks : List Coord) (edges : List (Coord × Edge))
    (water : List (Coord × WaterCell)) (inflow : List (Coord × List Nat))
    (dsteps : Nat) (hd : 0 < dsteps)
    (htinj : ∀ p1 p2 e1 e2, alook edges p1 = some e1 →
      alook edges p2 = some e2 → e1.tgt = e2.tgt → p1 = p2)
    (hnd : (akeys water).Nodup) :
    AdvInv sinks edges (akeys water) inflow dsteps water
      (water.foldl (advance_step sinks edges (akeys water) inflow dsteps
        (edges.length + 1)) ([], [])) := by
  have h0 : AdvInv sinks edges (akeys water) inflow dsteps [] ([], []) := by
    refine ⟨?_, ?_, ?_, ?_, ?_, ?_⟩
    · intro s hs
      simp [alook] at hs
    · simp [akeys]
    · intro q hq
      simp [akeys] at hq
    · intro p c hp
      simp at hp
    · intro p c hp
      simp at hp
    · intro p hp
      simp [akeys] at hp
  have := advance_fold_inv sinks edges water inflow dsteps hd htinj water []
    ([], []) (by simpa using hnd) (by simp) h0
  simpa using this

/-- Claim C10: within one tick, edge selection assigns at most one edge per
target coordinate; a successful move's target is a sink, unoccupied at tick
start, the mover's own position, or an occupied coordinate whose occupant's
own move is also recorded successful (which covers vacating moves and
detected cycles); committed keys of the pre-prune next map are pairwise
distinct; every current cell is consumed by a sink, decay-eligible when
dropped, or appears in the next map at its own position or its edge's
target; and a cell with no selected edge or a recorded-failed move is
preserved at its current position under the stationary aging rule. -/
theorem unique_commitment (world : GridWorld)
    (water : List (Coord × WaterCell)) (prev : List (Coord × Nat))
    (claims : List (Coord × Nat)) (targets : List (Coord × List Mover))
    (inflow : List (Coord × List Nat)) (dsteps : Nat)
    (edges : List (Coord × Edge))
    (hsel : edges = (select_edges world water prev claims targets).1)
    (hnt : (akeys targets).Nodup) (hnd : (akeys water).Nodup)
    (hd : 0 < dsteps) :
    (∀ p1 p2 e1 e2, alook edges p1 = some e1 → alook edges p2 = some e2 →
      e1.tgt = e2.tgt → p1 = p2) ∧
    (∀ p e, alook edges p = some e →
      (move_succeeds world.sinks edges (akeys water) (edges.length + 1)
        p [] []).1 = true →
      e.tgt ∈ world.sinks ∨ e.tgt ∉ akeys water ∨ e.tgt = p ∨
        alook (move_succeeds world.sinks edges (akeys water)
          (edges.length + 1) p [] []).2 e.tgt = some true) ∧
    (akeys (advance_water world.sinks water edges inflow dsteps)).Nodup ∧
    (∀ p c, (p, c) ∈ water →
      ((∃ e : Edge, alook edges p = some e ∧
          alook (water.foldl (advance_step world.sinks edges (akeys water)
            inflow dsteps (edges.length + 1)) ([], [])).2 p = some true ∧
          e.tgt ∈ world.sinks) ∨
        c.age + 1 ≥ dsteps ∨
        (∃ q d, (q, d) ∈ advance_water world.sinks water edges inflow dsteps ∧
          (q = p ∨ ∃ e : Edge, alook edges p = some e ∧ q = e.tgt)))) ∧
    (∀ p c, (p, c) ∈ water →
      (alook edges p = none ∨
        alook (water.foldl (advance_step world.sinks edges (akeys water)
          inflow dsteps (edges.length + 1)) ([], [])).2 p = some false) →
      (if c.emitter_id ∈ inflowIds inflow p then 0 else c.age + 1) < dsteps →
      (p, ⟨c.dx, c.dy,
        (if c.emitter_id ∈ inflowIds inflow p then 0 else c.age + 1),
        c.emitter_id, c.prefer_left⟩)
        ∈ advance_water world.sinks water edges inflow dsteps) := by
  have htinj : ∀ p1 p2 e1 e2, alook edges p1 = some e1 →
      alook edges p2 = some e2 → e1.tgt = e2.tgt → p1 = p2 := by
    rw [hsel]
    exact (select_fold_inj world water prev targets ([], claims) hnt
      (by simp [akeys]) (fun p e h => by simp [alook] at h)
      (fun p1 p2 e1 e2 h1 => by simp [alook] at h1)).2
  have hADV := advance_water_inv world.sinks edges water inflow dsteps hd
    htinj hnd
  have hwe : advance_water world.sinks water edges inflow dsteps
      = (water.foldl (advance_step world.sinks edges (akeys water) inflow
          dsteps (edges.length + 1)) ([], [])).1 := rfl
  refine ⟨htinj, ?_, ?_, ?_, ?_⟩
  · intro p e hpe htrue
    have hms0 : MemoSound world.sinks edges (akeys water) [] [] := by
      intro s hs
      simp [alook] at hs
    obtain ⟨e', he', hcases⟩ := (ms_sound world.sinks edges (akeys water)
      (edges.length + 1) [] p [] hms0).2 htrue
    rw [hpe] at he'
    obtain rfl := Option.some_injective _ he'
    rcases hcases with h | h | h | h | h
    · exact Or.inl h
    · exact Or.inr (Or.inl h)
    · exact Or.inr (Or.inr (Or.inl h))
    · exact Or.inr (Or.inr (Or.inr h))
    · simp at h
  · rw [hwe]
    exact hADV.2.1
  · intro p c hp
    rw [hwe]
    exact hADV.2.2.2.1 p c hp
  · intro p c hp hyp hlt
    rw [hwe]
    exact hADV.2.2.2.2.1 p c hp hyp hlt

/-- Witness for C10 at a concrete two-cell stream on `worldC` with the
pipeline-built proposals, targets, inflow sets and selected edges. -/
theorem unique_commitment_witness :
    ((akeys targetsU).Nodup ∧ (akeys waterU).Nodup ∧ 0 < 3) ∧
    ((∀ p1 p2 e1 e2, alook edgesU p1 = some e1 → alook edgesU p2 = some e2 →
      e1.tgt = e2.tgt → p1 = p2) ∧
    (∀ p e, alook edgesU p = some e →
      (move_succeeds worldC.sinks edgesU (akeys waterU) (edgesU.length + 1)
        p [] []).1 = true →
      e.tgt ∈ worldC.sinks ∨ e.tgt ∉ akeys waterU ∨ e.tgt = p ∨
        alook (move_succeeds worldC.sinks edgesU (akeys waterU)
          (edgesU.length + 1) p [] []).2 e.tgt = some true) ∧
    (akeys (advance_water worldC.sinks waterU edgesU inflowU 3)).Nodup ∧
    (∀ p c, (p, c) ∈ waterU →
      ((∃ e : Edge, alook edgesU p = some e ∧
          alook (waterU.foldl (advance_step worldC.sinks edgesU (akeys waterU)
            inflowU 3 (edgesU.length + 1)) ([], [])).2 p = some true ∧
          e.tgt ∈ worldC.sinks) ∨
        c.age + 1 ≥ 3 ∨
        (∃ q d, (q, d) ∈ advance_water worldC.sinks waterU edgesU inflowU 3 ∧
          (q = p ∨ ∃ e : Edge, alook edgesU p = some e ∧ q = e.tgt)))) ∧
    (∀ p c, (p, c) ∈ waterU →
      (alook edgesU p = none ∨
        alook (waterU.foldl (advance_step worldC.sinks edgesU (akeys waterU)
          inflowU 3 (edgesU.length + 1)) ([], [])).2 p = some false) →
      (if c.emitter_id ∈ inflowIds inflowU p then 0 else c.age + 1) < 3 →
      (p, ⟨c.dx, c.dy,
        (if c.emitter_id ∈ inflowIds inflowU p then 0 else c.age + 1),
        c.emitter_id, c.prefer_left⟩)
        ∈ advance_water worldC.sinks waterU edgesU inflowU 3)) :=
  ⟨⟨by decide, by decide, by decide⟩,
    unique_commitment worldC waterU prevU [] targetsU inflowU 3 edgesU rfl
      (by decide) (by decide) (by decide)⟩

end Flow
